import Mathlib

/-!
Verification development for the query/result heuristics pipeline
(`modules/heuristics.py`).

The Python module is a sequence of pure string transformations driven by
the `re` library.  We embed it shallowly over `List Char`: every regex of
the source is realised as a dedicated scanner implementing exactly that
pattern's leftmost, greedy, backtracking semantics (Python `re`), and
every heuristic is a function `List Char → List Char × List String`
mirroring the source line by line.  Character classes (`\w`, `\s`, `\d`,
`[A-Za-z]`, lowercasing under `re.IGNORECASE` and `str.lower`) are
modelled over their ASCII meaning, which is exact for all inputs
considered here.  Scanners that advance by a matched chunk use an explicit
fuel argument (always called with fuel larger than the input length, so
exhaustion is unreachable); this keeps every definition kernel-computable.
-/

namespace Heuristics

/-- Word characters of Python's regex class `\w` (ASCII part). -/
def isWordChar (c : Char) : Bool := c.isAlpha || c.isDigit || c = '_'

/-- Whitespace characters of Python's regex class `\s` (ASCII part). -/
def isSpaceChar (c : Char) : Bool :=
  c = ' ' || c = '\t' || c = '\n' || c = '\r' || c = '\x0b' || c = '\x0c'

/-- ASCII lowercasing, as `re.IGNORECASE` and `str.lower` act on ASCII. -/
def lowerC (c : Char) : Char := c.toLower

/-- Case-insensitive equality of two characters. -/
def ciEq (a b : Char) : Bool := lowerC a = lowerC b

/-- Case-insensitive "the pattern `p` is a prefix of `l`". -/
def ciPref : List Char → List Char → Bool
  | [], _ => true
  | _ :: _, [] => false
  | p :: ps, c :: cs => ciEq c p && ciPref ps cs

/-- Python's `\b` right after a word character: the next position is the
end of the string or holds a non-word character. -/
def nonWordHead : List Char → Bool
  | [] => true
  | c :: _ => !(isWordChar c)

/-- Python's `\b` between an optional previous character and `c`
(at the start of the string, `\b` holds iff `c` is a word character). -/
def bnd : Option Char → Char → Bool
  | none, c => isWordChar c
  | some p, c => isWordChar p != isWordChar c

/-- Match of `\b w \b` (with `re.IGNORECASE`) at the head of `l`, for a
word `w` that begins and ends with word characters; the leading `\b` is
the caller's burden (the `prevWord` flag of the scanners below). -/
def matchWordAt (w l : List Char) : Bool :=
  ciPref w l && nonWordHead (l.drop w.length)

/-- Semantics of `re.search(r'\b'+w+r'\b', l, re.IGNORECASE) is not None`:
`prevWord` says whether the character before `l` is a word character
(`false` at the start of the string). -/
def occursWW (w : List Char) : Bool → List Char → Bool
  | _, [] => false
  | prevWord, c :: cs =>
    (!prevWord && matchWordAt w (c :: cs)) || occursWW w (isWordChar c) cs

/-- Wordness of the last character of the pattern `w`: the `prevWord` flag
after the scanner jumps over a match of `w` (case-insensitive matching
preserves wordness, so this equals the wordness of the matched text's
last character). -/
def wordTailFlag : List Char → Bool → Bool
  | [], prevWord => prevWord
  | [d], _ => isWordChar d
  | _ :: d :: rest, prevWord => wordTailFlag (d :: rest) prevWord

/-- Semantics of `re.sub(r'\b'+w+r'\b', repl, l, flags=re.IGNORECASE)`:
leftmost scan, non-overlapping, every match replaced by `repl`. -/
def subWW (w repl : List Char) : Nat → Bool → List Char → List Char
  | 0, _, l => l
  | _ + 1, _, [] => []
  | fuel + 1, prevWord, c :: cs =>
    if !prevWord && matchWordAt w (c :: cs) then
      repl ++ subWW w repl fuel (wordTailFlag w prevWord) (cs.drop (w.length - 1))
    else
      c :: subWW w repl fuel (isWordChar c) cs

/-- Whole-word case-insensitive substitution over a whole string. -/
def subWWs (w repl l : List Char) : List Char :=
  subWW w repl (l.length + 1) false l

/-- Semantics of Python's `str.replace(old, new)` (all occurrences,
left to right, non-overlapping, case-sensitive); `old` is non-empty at
every use site. -/
def replaceAll (old new : List Char) : Nat → List Char → List Char
  | 0, l => l
  | _ + 1, [] => []
  | fuel + 1, c :: cs =>
    if old.isPrefixOf (c :: cs) then
      new ++ replaceAll old new fuel (cs.drop (old.length - 1))
    else
      c :: replaceAll old new fuel cs

/-- Python `str.replace` over a whole string. -/
def replaceAllS (l old new : List Char) : List Char :=
  replaceAll old new (l.length + 1) l

namespace QueryHeuristics

/-- Common typo dictionary of `fix_typos`, in the source's insertion
order. -/
def common_typos : List (String × String) :=
  [("clendar", "calendar"), ("calander", "calendar"), ("schedual", "schedule"),
   ("scedule", "schedule"), ("emaill", "email"), ("emial", "email"),
   ("docuemnt", "document"), ("documnet", "document"), ("serach", "search"),
   ("summery", "summary"), ("summerize", "summarize")]

/-- Heuristic 1: fix common typos (whole-word, case-insensitive; one fix
record per typo key that matched, replacement of every occurrence). -/
def fix_typos (query : List Char) : List Char × List String :=
  common_typos.foldl
    (fun acc tc =>
      if occursWW tc.1.toList false acc.1 then
        (subWWs tc.1.toList tc.2.toList acc.1,
         acc.2 ++ ["Corrected typo: '" ++ tc.1 ++ "' to '" ++ tc.2 ++ "'"])
      else acc)
    (query, [])

/-- Denylist of `remove_banned_words`, in source order. -/
def banned_words : List String :=
  ["hack", "exploit", "vulnerability", "illegal", "password",
   "credit card", "ssn", "social security", "porn", "xxx"]

/-- Heuristic 2: replace banned words (whole-word, case-insensitive) by
the literal placeholder, one fix record per denylisted word found. -/
def remove_banned_words (query : List Char) : List Char × List String :=
  banned_words.foldl
    (fun acc w =>
      if occursWW w.toList false acc.1 then
        (subWWs w.toList "[FILTERED]".toList acc.1,
         acc.2 ++ ["Removed banned word: '" ++ w ++ "'"])
      else acc)
    (query, [])

end QueryHeuristics

/-- Two leading digits, when present (`\d{2}` at the head). -/
def take2d : List Char → Option (List Char × List Char)
  | a :: b :: r => if a.isDigit && b.isDigit then some ([a, b], r) else none
  | _ => none

/-- One leading digit (`\d` at the head). -/
def take1d : List Char → Option (List Char × List Char)
  | a :: r => if a.isDigit then some ([a], r) else none
  | _ => none

/-- Three leading digits (`\d{3}` at the head). -/
def take3d : List Char → Option (List Char × List Char)
  | a :: b :: c :: r =>
    if a.isDigit && b.isDigit && c.isDigit then some ([a, b, c], r) else none
  | _ => none

/-- Four leading digits (`\d{4}` at the head). -/
def take4d : List Char → Option (List Char × List Char)
  | a :: b :: c :: d :: r =>
    if a.isDigit && b.isDigit && c.isDigit && d.isDigit then
      some ([a, b, c, d], r)
    else none
  | _ => none

/-- Date pattern, year group `(\d{2}|\d{4})`: ordered alternation, two
digits tried first (and, since nothing follows the group, always taken
when four would also be available). -/
def dateYear (r : List Char) : Option (List Char × List Char) :=
  match take2d r with
  | some res => some res
  | none => take4d r

/-- Date pattern after month and day matched: the second `/` and the year
group. -/
def dateAfterDay (m d r : List Char) :
    Option ((List Char × List Char × List Char) × List Char) :=
  match r with
  | '/' :: r2 =>
    match dateYear r2 with
    | some (y, rest) => some ((m, d, y), rest)
    | none => none
  | _ => none

/-- Date pattern day group `(\d{1,2})`, greedy with backtracking: two
digits first, one digit if the rest of the pattern then fails. -/
def dateDay (m r : List Char) :
    Option ((List Char × List Char × List Char) × List Char) :=
  match take2d r with
  | some (d, r1) =>
    match dateAfterDay m d r1 with
    | some res => some res
    | none =>
      match take1d r with
      | some (d1, r2) => dateAfterDay m d1 r2
      | none => none
  | none =>
    match take1d r with
    | some (d1, r2) => dateAfterDay m d1 r2
    | none => none

/-- Date pattern after the month group: the first `/` and the rest. -/
def dateSlashDay (m r : List Char) :
    Option ((List Char × List Char × List Char) × List Char) :=
  match r with
  | '/' :: r1 => dateDay m r1
  | _ => none

/-- Match of `(\d{1,2})/(\d{1,2})/(\d{2}|\d{4})` at the head of `l`:
`((month, day, year), rest)`. -/
def matchDateAt (l : List Char) :
    Option ((List Char × List Char × List Char) × List Char) :=
  match take2d l with
  | some (m, r) =>
    match dateSlashDay m r with
    | some res => some res
    | none =>
      match take1d l with
      | some (m1, r1) => dateSlashDay m1 r1
      | none => none
  | none =>
    match take1d l with
    | some (m1, r1) => dateSlashDay m1 r1
    | none => none

/-- Python `str.zfill(2)` on a one- or two-digit group. -/
def zfill2 (s : List Char) : List Char := if s.length = 1 then '0' :: s else s

/-- The last `n` characters (Python's `s[-n:]`). -/
def lastN (n : Nat) (l : List Char) : List Char := l.drop (l.length - n)

/-- Fix message of `normalize_date_formats` (month and day already
zero-filled, `yf` the expanded year). -/
def dateFix (mm dd yf : List Char) : String :=
  "Normalized date format: " ++ mm.asString ++ "/" ++ dd.asString ++ "/" ++
    (lastN 2 yf).asString ++ " to " ++ yf.asString ++ "-" ++ mm.asString ++
    "-" ++ dd.asString

/-- Leftmost non-overlapping `re.sub` scan of the date pattern, with the
replacer of the source (two-digit years expanded with the current
century). -/
def dateScan (century : List Char) : Nat → List Char → List Char × List String
  | 0, l => (l, [])
  | _ + 1, [] => ([], [])
  | fuel + 1, c :: cs =>
    match matchDateAt (c :: cs) with
    | some ((m, d, y), rest) =>
      let mm := zfill2 m
      let dd := zfill2 d
      let yf := if y.length = 2 then century ++ y else y
      let t := dateScan century fuel rest
      (yf ++ '-' :: (mm ++ '-' :: (dd ++ t.1)), dateFix mm dd yf :: t.2)
    | none =>
      let t := dateScan century fuel cs
      (c :: t.1, t.2)

namespace QueryHeuristics

/-- Heuristic 3: normalize date formats.  `century` stands for
`str(datetime.datetime.now().year)[:2]` (so `['2','0']` in the 2000s). -/
def normalize_date_formats (century query : List Char) :
    List Char × List String :=
  dateScan century (query.length + 1) query

end QueryHeuristics

/-- Email local-part class `[A-Za-z0-9._%+-]`. -/
def isLocalChar (c : Char) : Bool :=
  c.isAlpha || c.isDigit || c = '.' || c = '_' || c = '%' || c = '+' || c = '-'

/-- Email domain class `[A-Za-z0-9.-]`. -/
def isDomChar (c : Char) : Bool :=
  c.isAlpha || c.isDigit || c = '.' || c = '-'

/-- Email final class `[A-Z|a-z]` (the source's character class literally
contains `|`). -/
def isTldChar (c : Char) : Bool := c.isAlpha || c = '|'

/-- Python's `\b` between `last` and the head of `rest` (at the end of
the string, `\b` holds iff `last` is a word character). -/
def bndAfter (last : Char) (rest : List Char) : Bool :=
  match rest with
  | [] => isWordChar last
  | r :: _ => isWordChar last != isWordChar r

/-- Greedy-with-backtracking match of `[A-Z|a-z]{2,}\b` at the head of
`t`: the candidate length is tried from `j` downwards (never below 2). -/
def tldTry (t : List Char) : Nat → Option (List Char × List Char)
  | 0 => none
  | j + 1 =>
    if j + 1 < 2 then none
    else
      let tld := t.take (j + 1)
      let rest := t.drop (j + 1)
      match tld.getLast? with
      | some lastc => if bndAfter lastc rest then some (tld, rest) else tldTry t j
      | none => none

/-- Greedy-with-backtracking match of `[A-Za-z0-9.-]+\.[A-Z|a-z]{2,}\b`
at the head of `r1`: the part before the literal dot is tried longest
first; `k+1` is the candidate length of that part. -/
def domTry (r1 : List Char) : Nat → Option (List Char × List Char)
  | 0 => none
  | k + 1 =>
    match r1.drop (k + 1) with
    | '.' :: afterDot =>
      let run := afterDot.takeWhile isTldChar
      match tldTry afterDot run.length with
      | some (tld, rest) => some (r1.take (k + 1) ++ '.' :: tld, rest)
      | none => domTry r1 k
    | _ => domTry r1 k

/-- Match of the email pattern
`[A-Za-z0-9._%+-]+@[A-Za-z0-9.-]+\.[A-Z|a-z]{2,}\b` at the head of `l`
(the leading `\b` is the caller's burden): `(email, rest)`. -/
def matchEmailAt (l : List Char) : Option (List Char × List Char) :=
  let localPart := l.takeWhile isLocalChar
  if localPart.isEmpty then none
  else
    match l.drop localPart.length with
    | '@' :: r1 =>
      let run := r1.takeWhile isDomChar
      match domTry r1 (run.length - 1) with
      | some (dom, rest) => some (localPart ++ '@' :: dom, rest)
      | none => none
    | _ => none

/-- Semantics of `re.findall(email_pattern, query)`: leftmost
non-overlapping matches, tracking the previous character for `\b`. -/
def findEmails : Nat → Option Char → List Char → List (List Char)
  | 0, _, _ => []
  | _ + 1, _, [] => []
  | fuel + 1, prev, c :: cs =>
    if bnd prev c then
      match matchEmailAt (c :: cs) with
      | some (em, rest) => em :: findEmails fuel em.getLast? rest
      | none => findEmails fuel (some c) cs
    else findEmails fuel (some c) cs

/-- Python `email.split('@')[1]`: the text between the first `@` and the
next one (every extracted email holds exactly one `@`). -/
def emDomain (em : List Char) : List Char :=
  ((em.dropWhile (fun c => !(c = '@'))).drop 1).takeWhile (fun c => !(c = '@'))

namespace QueryHeuristics

/-- Known-typo email domains of `validate_email_format`, in source
order. -/
def common_domains : List (String × String) :=
  [("gmal.com", "gmail.com"), ("gamil.com", "gmail.com"),
   ("gmial.com", "gmail.com"), ("hotmial.com", "hotmail.com"),
   ("yaho.com", "yahoo.com"), ("outlok.com", "outlook.com")]

/-- Heuristic 4: correct known-typo email domains.  Note the source uses
`str.replace`, which rewrites every occurrence of the email. -/
def validate_email_format (query : List Char) : List Char × List String :=
  let emails := findEmails (query.length + 1) none query
  emails.foldl
    (fun acc em =>
      let domain := emDomain em
      common_domains.foldl
        (fun acc2 td =>
          if domain = td.1.toList then
            let corrected := replaceAllS em td.1.toList td.2.toList
            (replaceAllS acc2.1 em corrected,
             acc2.2 ++ ["Corrected email domain: '" ++ em.asString ++ "' to '" ++
               corrected.asString ++ "'"])
          else acc2)
        acc)
    (query, [])

end QueryHeuristics

/-- Match of `rm\s+-rf\b` at the head of `l` (case-insensitive; the
leading `\b` is the caller's burden). -/
def matchRmRfAt (l : List Char) : Bool :=
  match l with
  | a :: b :: r =>
    ciEq a 'r' && ciEq b 'm' &&
      (let sp := r.takeWhile isSpaceChar
       !sp.isEmpty &&
         (match r.drop sp.length with
          | x :: y :: z :: rest => x = '-' && ciEq y 'r' && ciEq z 'f' && nonWordHead rest
          | _ => false))
  | _ => false

/-- Semantics of `re.search(r'\brm\s+-rf\b', l, re.IGNORECASE)`. -/
def searchRmRf : Option Char → List Char → Bool
  | _, [] => false
  | prev, c :: cs => (bnd prev c && matchRmRfAt (c :: cs)) || searchRmRf (some c) cs

/-- Match of `chmod\b\s+777` at the head of `l` (case-insensitive). -/
def matchChmodAt (l : List Char) : Bool :=
  ciPref "chmod".toList l &&
    (let r := l.drop 5
     nonWordHead r &&
       (let sp := r.takeWhile isSpaceChar
        !sp.isEmpty &&
          (match r.drop sp.length with
           | x :: y :: z :: _ => x = '7' && y = '7' && z = '7'
           | _ => false)))

/-- Semantics of `re.search(r'\bchmod\b\s+777', l, re.IGNORECASE)`. -/
def searchChmod : Option Char → List Char → Bool
  | _, [] => false
  | prev, c :: cs => (bnd prev c && matchChmodAt (c :: cs)) || searchChmod (some c) cs

/-- Match of `if=/dev\b` at the head of `l` (case-insensitive). -/
def matchIfDevAt (l : List Char) : Bool :=
  ciPref "if=/dev".toList l && nonWordHead (l.drop 7)

/-- Scan for `.*\bif=/dev\b` (a `.` never matches a newline). -/
def scanIfDev : Option Char → List Char → Bool
  | _, [] => false
  | prev, c :: cs =>
    if c = '\n' then false
    else (bnd prev c && matchIfDevAt (c :: cs)) || scanIfDev (some c) cs

/-- Match of `dd\b.*\bif=/dev\b` at the head of `l`. -/
def matchDdAt (l : List Char) : Bool :=
  match l with
  | a :: b :: r => ciEq a 'd' && ciEq b 'd' && nonWordHead r && scanIfDev (some b) r
  | _ => false

/-- Semantics of `re.search(r'\bdd\b.*\bif=/dev\b', l, re.IGNORECASE)`. -/
def searchDdIfDev : Option Char → List Char → Bool
  | _, [] => false
  | prev, c :: cs => (bnd prev c && matchDdAt (c :: cs)) || searchDdIfDev (some c) cs

/-- Scan for `.*\bdisk\b` (a `.` never matches a newline). -/
def scanDisk : Option Char → List Char → Bool
  | _, [] => false
  | prev, c :: cs =>
    if c = '\n' then false
    else
      (bnd prev c && ciPref "disk".toList (c :: cs) && nonWordHead (cs.drop 3)) ||
        scanDisk (some c) cs

/-- Match of `format\b.*\bdisk\b` at the head of `l`. -/
def matchFormatAt (l : List Char) : Bool :=
  ciPref "format".toList l && nonWordHead (l.drop 6) &&
    (match l.drop 5 with
     | lastc :: r => scanDisk (some lastc) r
     | [] => false)

/-- Semantics of `re.search(r'\bformat\b.*\bdisk\b', l, re.IGNORECASE)`. -/
def searchFormatDisk : Option Char → List Char → Bool
  | _, [] => false
  | prev, c :: cs => (bnd prev c && matchFormatAt (c :: cs)) || searchFormatDisk (some c) cs

namespace QueryHeuristics

/-- The unsafe-command patterns of `detect_unsafe_commands`, each paired
with the semantics of its `re.search`, in source order. -/
def unsafe_patterns : List (String × (List Char → Bool)) :=
  [("\\brm\\s+-rf\\b", fun q => searchRmRf none q),
   ("\\bsudo\\b", fun q => occursWW "sudo".toList false q),
   ("\\bchmod\\b\\s+777", fun q => searchChmod none q),
   ("\\bdd\\b.*\\bif=/dev\\b", fun q => searchDdIfDev none q),
   ("\\bmkfs\\b", fun q => occursWW "mkfs".toList false q),
   ("\\bformat\\b.*\\bdisk\\b", fun q => searchFormatDisk none q)]

/-- Heuristic 5: detect (and only report) potentially unsafe shell
commands; the query is returned unmodified. -/
def detect_unsafe_commands (query : List Char) : List Char × List String :=
  (query,
   unsafe_patterns.foldl
     (fun acc pr =>
       if pr.2 query then
         acc ++ ["WARNING: Potentially unsafe command detected: " ++ pr.1]
       else acc)
     [])

end QueryHeuristics

/-- Hexadecimal digit class `[\da-fA-F]`. -/
def isHexChar (c : Char) : Bool :=
  c.isDigit || ('a' ≤ c && c ≤ 'f') || ('A' ≤ c && c ≤ 'F')

/-- Greedy match of `(?:[-\w.]|(?:%[\da-fA-F]{2}))+` (the URL body):
`(consumed, rest)`, possibly empty. -/
def urlBody : Nat → List Char → List Char × List Char
  | 0, l => ([], l)
  | _ + 1, [] => ([], [])
  | fuel + 1, c :: cs =>
    if c = '-' || isWordChar c || c = '.' then
      let t := urlBody fuel cs
      (c :: t.1, t.2)
    else if c = '%' then
      match cs with
      | x :: y :: r2 =>
        if isHexChar x && isHexChar y then
          let t := urlBody fuel r2
          (c :: x :: y :: t.1, t.2)
        else ([], c :: cs)
      | _ => ([], c :: cs)
    else ([], c :: cs)

/-- Match of `https?://(?:[-\w.]|(?:%[\da-fA-F]{2}))+` at the head of `l`
(case-sensitive, as in the source): `(url, rest)`. -/
def matchUrlAt (l : List Char) : Option (List Char × List Char) :=
  if "https://".toList.isPrefixOf l then
    let t := urlBody (l.length + 1) (l.drop 8)
    if t.1.isEmpty then none else some ("https://".toList ++ t.1, t.2)
  else if "http://".toList.isPrefixOf l then
    let t := urlBody (l.length + 1) (l.drop 7)
    if t.1.isEmpty then none else some ("http://".toList ++ t.1, t.2)
  else none

/-- Semantics of `re.findall(url_pattern, query)`. -/
def findUrls : Nat → List Char → List (List Char)
  | 0, _ => []
  | _ + 1, [] => []
  | fuel + 1, c :: cs =>
    match matchUrlAt (c :: cs) with
    | some (u, rest) => u :: findUrls fuel rest
    | none => findUrls fuel cs

/-- Semantics of `re.search(needle, hay, re.IGNORECASE)` for a literal
needle (plain substring search, case-insensitive). -/
def containsCI : List Char → List Char → Bool
  | nd, [] => nd.isEmpty
  | nd, c :: cs => ciPref nd (c :: cs) || containsCI nd cs

namespace QueryHeuristics

/-- Suspicious URL keywords of `validate_urls`, in source order. -/
def suspicious_patterns : List String :=
  ["malware", "phish", "hack", "crack", "warez", "porn", "xxx"]

/-- Heuristic 6: replace suspicious URLs by a placeholder (first matching
keyword wins per URL, every occurrence of the URL replaced). -/
def validate_urls (query : List Char) : List Char × List String :=
  let urls := findUrls (query.length + 1) query
  urls.foldl
    (fun acc u =>
      match suspicious_patterns.find? (fun p => containsCI p.toList u) with
      | some p =>
        (replaceAllS acc.1 u "[FILTERED_URL]".toList,
         acc.2 ++ ["Removed suspicious URL containing '" ++ p ++ "'"])
      | none => acc)
    (query, [])

end QueryHeuristics

/-- Currency symbol class `[$€£¥]`. -/
def isCurrencySym (c : Char) : Bool := c = '$' || c = '€' || c = '£' || c = '¥'

/-- Greedy match of `(?:,\d{3})+`-style comma groups: `(consumed, rest)`,
possibly empty. -/
def commaGroups : Nat → List Char → List Char × List Char
  | 0, l => ([], l)
  | fuel + 1, l =>
    match l with
    | ',' :: a :: b :: c :: r =>
      if a.isDigit && b.isDigit && c.isDigit then
        let t := commaGroups fuel r
        (',' :: a :: b :: c :: t.1, t.2)
      else ([], l)
    | _ => ([], l)

/-- One candidate of the first currency alternative: a fixed-width digit
head given by `f`, then at least one comma group. -/
def alt1With (f : List Char → Option (List Char × List Char)) (l : List Char) :
    Option (List Char × List Char) :=
  match f l with
  | some (d, r) =>
    let g := commaGroups (r.length + 1) r
    if g.1.isEmpty then none else some (d ++ g.1, g.2)
  | none => none

/-- First currency alternative `\d{1,3}(?:,\d{3})+`, greedy with
backtracking on the head width (3, then 2, then 1 digits). -/
def currencyAlt1 (l : List Char) : Option (List Char × List Char) :=
  match alt1With take3d l with
  | some res => some res
  | none =>
    match alt1With take2d l with
    | some res => some res
    | none => alt1With take1d l

/-- Second currency alternative `\d+` (maximal digit run). -/
def currencyAlt2 (l : List Char) : Option (List Char × List Char) :=
  let d := l.takeWhile Char.isDigit
  if d.isEmpty then none else some (d, l.drop d.length)

/-- Optional greedy fraction `(?:\.\d+)?`: `(consumed, rest)`. -/
def currencyFrac (l : List Char) : List Char × List Char :=
  match l with
  | '.' :: r =>
    let d := r.takeWhile Char.isDigit
    if d.isEmpty then ([], l) else ('.' :: d, r.drop d.length)
  | _ => ([], l)

/-- Match of `[$€£¥](\d{1,3}(?:,\d{3})+|\d+)(?:\.\d+)?` at the head of
`l`: `(matched value, rest)`. -/
def matchCurrencyAt (l : List Char) : Option (List Char × List Char) :=
  match l with
  | s :: r =>
    if isCurrencySym s then
      match
        (match currencyAlt1 r with
         | some res => some res
         | none => currencyAlt2 r) with
      | some (g, r2) =>
        let f := currencyFrac r2
        some (s :: (g ++ f.1), f.2)
      | none => none
    else none
  | [] => none

/-- Fix message of `normalize_numeric_values`. -/
def currencyFixMsg (value numeric : List Char) : String :=
  "Normalized currency value: " ++ value.asString ++ " to " ++ numeric.asString

/-- Leftmost non-overlapping `re.sub` scan of the currency pattern with
the source's replacer (`value[1:].replace(',', '')` behind the symbol). -/
def currencyScan : Nat → List Char → List Char × List String
  | 0, l => (l, [])
  | _ + 1, [] => ([], [])
  | fuel + 1, c :: cs =>
    match matchCurrencyAt (c :: cs) with
    | some (v, rest) =>
      let numeric := v.filter (fun ch => !(ch = ','))
      let t := currencyScan fuel rest
      (numeric ++ t.1, currencyFixMsg v numeric :: t.2)
    | none =>
      let t := currencyScan fuel cs
      (c :: t.1, t.2)

namespace QueryHeuristics

/-- Heuristic 7: normalize currency values (strip thousands
separators). -/
def normalize_numeric_values (query : List Char) : List Char × List String :=
  currencyScan (query.length + 1) query

end QueryHeuristics

/-- Separator class `[-\s]` of the PII patterns. -/
def isPiiSep (c : Char) : Bool := c = '-' || isSpaceChar c

/-- Match of `(?:\d{4}[-\s]?){n}\d{4}\b` at the head of `l`, with the
optional separators greedy and backtracking: `(consumed, rest)`. -/
def ccGroups : Nat → List Char → Option (List Char × List Char)
  | 0, l =>
    match take4d l with
    | some (g, r) => if nonWordHead r then some (g, r) else none
    | none => none
  | n + 1, l =>
    match take4d l with
    | some (g, r) =>
      match r with
      | s :: r2 =>
        if isPiiSep s then
          match ccGroups n r2 with
          | some (c2, rest) => some (g ++ s :: c2, rest)
          | none => (ccGroups n r).map (fun pr => (g ++ pr.1, pr.2))
        else (ccGroups n r).map (fun pr => (g ++ pr.1, pr.2))
      | [] => (ccGroups n r).map (fun pr => (g ++ pr.1, pr.2))
    | none => none

/-- Match of `\d{2}[-\s]?\d{4}\b` (the SSN tail) at the head of `l`. -/
def ssnTail1 (l : List Char) : Option (List Char × List Char) :=
  match take2d l with
  | some (g, r) =>
    match r with
    | s :: r2 =>
      if isPiiSep s then
        match ccGroups 0 r2 with
        | some (t, rest) => some (g ++ s :: t, rest)
        | none => (ccGroups 0 r).map (fun pr => (g ++ pr.1, pr.2))
      else (ccGroups 0 r).map (fun pr => (g ++ pr.1, pr.2))
    | [] => (ccGroups 0 r).map (fun pr => (g ++ pr.1, pr.2))
  | none => none

/-- Match of `\d{3}[-\s]?\d{2}[-\s]?\d{4}\b` at the head of `l`. -/
def matchSsnAt (l : List Char) : Option (List Char × List Char) :=
  match take3d l with
  | some (g, r) =>
    match r with
    | s :: r2 =>
      if isPiiSep s then
        match ssnTail1 r2 with
        | some (t, rest) => some (g ++ s :: t, rest)
        | none => (ssnTail1 r).map (fun pr => (g ++ pr.1, pr.2))
      else (ssnTail1 r).map (fun pr => (g ++ pr.1, pr.2))
    | [] => (ssnTail1 r).map (fun pr => (g ++ pr.1, pr.2))
  | none => none

/-- Semantics of `re.search` for a PII pattern given by its head
matcher `m` (both PII patterns open with `\b` before a digit). -/
def searchPii (m : List Char → Option (List Char × List Char)) :
    Option Char → List Char → Bool
  | _, [] => false
  | prev, c :: cs => (bnd prev c && (m (c :: cs)).isSome) || searchPii m (some c) cs

/-- Semantics of `re.sub` for a PII pattern given by its head matcher. -/
def subPii (m : List Char → Option (List Char × List Char)) (repl : List Char) :
    Nat → Option Char → List Char → List Char
  | 0, _, l => l
  | _ + 1, _, [] => []
  | fuel + 1, prev, c :: cs =>
    if bnd prev c then
      match m (c :: cs) with
      | some (g, rest) => repl ++ subPii m repl fuel g.getLast? rest
      | none => c :: subPii m repl fuel (some c) cs
    else c :: subPii m repl fuel (some c) cs

namespace QueryHeuristics

/-- Heuristic 8: redact potential PII (credit-card-like pattern first,
then SSN-like pattern on the updated query; one fix record per pattern
that matched, however many matches). -/
def detect_pii (query : List Char) : List Char × List String :=
  let ccHit := searchPii (ccGroups 3) none query
  let q1 :=
    if ccHit then
      subPii (ccGroups 3) "[REDACTED_CARD_NUMBER]".toList (query.length + 1) none query
    else query
  let f1 : List String := if ccHit then ["Redacted potential credit card number"] else []
  let ssnHit := searchPii matchSsnAt none q1
  let q2 :=
    if ssnHit then subPii matchSsnAt "[REDACTED_SSN]".toList (q1.length + 1) none q1
    else q1
  let f2 : List String :=
    if ssnHit then ["Redacted potential Social Security Number"] else []
  (q2, f1 ++ f2)

end QueryHeuristics

/-- Semantics of `re.sub(r'\s+', ' ', l)`: every maximal whitespace run
becomes a single space (`inRun` says whether the previous character was
whitespace). -/
def collapseWS : Bool → List Char → List Char
  | _, [] => []
  | inRun, c :: cs =>
    if isSpaceChar c then
      if inRun then collapseWS true cs else ' ' :: collapseWS true cs
    else c :: collapseWS false cs

/-- Python `str.strip()`: leading and trailing whitespace removed. -/
def pyStrip (l : List Char) : List Char :=
  ((l.dropWhile isSpaceChar).reverse.dropWhile isSpaceChar).reverse

namespace QueryHeuristics

/-- Heuristic 9: collapse whitespace runs and trim; a fix is recorded
only when the string actually changed. -/
def remove_excessive_whitespace (query : List Char) : List Char × List String :=
  let cleaned := pyStrip (collapseWS false query)
  (cleaned, if cleaned = query then [] else ["Removed excessive whitespace"])

/-- Heuristic 10: truncate over-long queries (the source's default cap is
500; the pipeline always calls it with that default). -/
def limit_query_length (query : List Char) (max_length : Nat) :
    List Char × List String :=
  if max_length < query.length then
    (query.take max_length ++ "...".toList,
     ["Truncated query from " ++ toString query.length ++ " to " ++
       toString max_length ++ " characters"])
  else (query, [])

/-- The full pipeline `validate_and_fix_query`: the ten heuristics in
source order, fixes concatenated.  `century` abstracts the ambient
`datetime.datetime.now().year` dependency of heuristic 3. -/
def validate_and_fix_query (century query : List Char) : List Char × List String :=
  let s1 := fix_typos query
  let s2 := remove_banned_words s1.1
  let s3 := normalize_date_formats century s2.1
  let s4 := validate_email_format s3.1
  let s5 := detect_unsafe_commands s4.1
  let s6 := validate_urls s5.1
  let s7 := normalize_numeric_values s6.1
  let s8 := detect_pii s7.1
  let s9 := remove_excessive_whitespace s8.1
  let s10 := limit_query_length s9.1 500
  (s10.1, s1.2 ++ s2.2 ++ s3.2 ++ s4.2 ++ s5.2 ++ s6.2 ++ s7.2 ++ s8.2 ++ s9.2 ++ s10.2)

end QueryHeuristics

/-- The module-level entry point `apply_heuristics`. -/
def apply_heuristics (century query : List Char) : List Char × List String :=
  QueryHeuristics.validate_and_fix_query century query

/-- Python `str.lower` (ASCII model). -/
def lowerL (l : List Char) : List Char := l.map lowerC

/-- Semantics of `re.findall(r'\b[A-Za-z]+\b', l)`: maximal alphabetic
runs delimited by word boundaries (a run touching a digit or underscore
yields no token at all). -/
def wordTokens : Nat → Option Char → List Char → List (List Char)
  | 0, _, _ => []
  | _ + 1, _, [] => []
  | fuel + 1, prev, c :: cs =>
    if bnd prev c && c.isAlpha then
      let run := c :: cs.takeWhile Char.isAlpha
      let rest := cs.dropWhile Char.isAlpha
      if nonWordHead rest then run :: wordTokens fuel (some (run.getLastD c)) rest
      else wordTokens fuel (some c) cs
    else wordTokens fuel (some c) cs

/-- Match of `[A-Z][a-z]+` at the head of `t`: `(word, rest)`. -/
def capWord (t : List Char) : Option (List Char × List Char) :=
  match t with
  | c :: cs =>
    if c.isUpper then
      let low := cs.takeWhile Char.isLower
      if low.isEmpty then none else some (c :: low, cs.dropWhile Char.isLower)
    else none
  | [] => none

/-- Greedy reps `(?:\s+[A-Z][a-z]+)*`: `(consumed, rest)`. -/
def moreCaps : Nat → List Char → List Char × List Char
  | 0, l => ([], l)
  | fuel + 1, l =>
    let sp := l.takeWhile isSpaceChar
    if sp.isEmpty then ([], l)
    else
      match capWord (l.drop sp.length) with
      | some (w, rest) =>
        let t := moreCaps fuel rest
        (sp ++ w ++ t.1, t.2)
      | none => ([], l)

/-- Continuation of the entity pattern after its article: `\s+` then the
capturing group `([A-Z][a-z]+(?:\s+[A-Z][a-z]+)*)`; returns
`(group text, rest)`. -/
def entCont (r : List Char) : Option (List Char × List Char) :=
  let sp := r.takeWhile isSpaceChar
  if sp.isEmpty then none
  else
    match capWord (r.drop sp.length) with
    | some (w, rest) =>
      let t := moreCaps rest.length rest
      some (w ++ t.1, t.2)
    | none => none

/-- Match of `(?:(?:the|an?)\s+([A-Z][a-z]+(?:\s+[A-Z][a-z]+)*))` at the
head of `l` (the articles are lowercase literals, matched
case-sensitively): `(captured group, rest)`. -/
def matchEntityAt (l : List Char) : Option (List Char × List Char) :=
  match (if "the".toList.isPrefixOf l then entCont (l.drop 3) else none) with
  | some res => some res
  | none =>
    match (if "an".toList.isPrefixOf l then entCont (l.drop 2) else none) with
    | some res => some res
    | none => if "a".toList.isPrefixOf l then entCont (l.drop 1) else none

/-- Semantics of `re.findall(entities_pattern, response)` (the list of
captured groups). -/
def findEntities : Nat → List Char → List (List Char)
  | 0, _ => []
  | _ + 1, [] => []
  | fuel + 1, c :: cs =>
    match matchEntityAt (c :: cs) with
    | some (ent, rest) => ent :: findEntities fuel rest
    | none => findEntities fuel cs

/-- Fueled base-`b` logarithm (largest `k` with `b^k ≤ n`, and `0` for
`n = 0` or `b < 2`); fuel `n` always suffices. -/
def natLogA (b : Nat) : Nat → Nat → Nat
  | 0, _ => 0
  | fuel + 1, n => if 2 ≤ b ∧ b ≤ n then natLogA b fuel (n / b) + 1 else 0

def natLog (b n : Nat) : Nat := natLogA b n n

/-- Round `num / den` to the nearest integer, ties to even. -/
def roundHalfEven (num den : Nat) : Nat :=
  let q := num / den
  let r := num % den
  if den < 2 * r then q + 1
  else if 2 * r < den then q
  else if q % 2 = 0 then q else q + 1

/-- Is `2^c * M ≤ N`? -/
def pow2MulLe (c : Int) (M N : Nat) : Bool :=
  if 0 ≤ c then decide (2 ^ c.toNat * M ≤ N) else decide (M ≤ N * 2 ^ (-c).toNat)

/-- Correctly rounded (nearest, ties to even) IEEE binary64 magnitude of
the decimal `D * 10^p`: `some (m, e)` with value `m * 2^e` in canonical
form (`2^52 ≤ m < 2^53`, or `e = -1074` and `m < 2^52`, or `(0, 0)`), or
`none` on overflow to infinity.  This is what CPython's correctly
rounded `strtod` computes for `float(...)`. -/
def floatMag (D : Nat) (p : Int) : Option (Nat × Int) :=
  if D = 0 then some (0, 0)
  else
    let dlen : Int := (natLog 10 D : Int) + 1
    if dlen + p ≤ -325 then some (0, 0)
    else if 309 ≤ dlen + p - 1 then none
    else
      let N := D * 10 ^ p.toNat
      let M := 10 ^ (-p).toNat
      let cand : Int := (natLog 2 N : Int) - (natLog 2 M : Int)
      let b : Int := if pow2MulLe cand M N then cand + 1 else cand
      let e : Int := max (b - 53) (-1074)
      let m := if 0 ≤ e then roundHalfEven N (M * 2 ^ e.toNat)
               else roundHalfEven (N * 2 ^ (-e).toNat) M
      let me : Nat × Int := if m = 2 ^ 53 then (2 ^ 52, e + 1) else (m, e)
      if 971 < me.2 then none else some (if me.1 = 0 then (0, 0) else me)

/-- A CPython `float`: a canonical finite value `±m * 2^e`, a signed
infinity, or NaN. -/
inductive PyFloat where
  | finite : Bool → Nat → Int → PyFloat
  | inf : Bool → PyFloat
  | nan : PyFloat
deriving DecidableEq

/-- `float(s)` on a decimal `±D * 10^p` (overflow gives an infinity,
underflow a signed zero). -/
def floatOfDigits (neg : Bool) (D : Nat) (p : Int) : PyFloat :=
  match floatMag D p with
  | none => PyFloat.inf neg
  | some (m, e) => PyFloat.finite neg m e

/-- Largest `E` with `10^E ≤ m * 2^e` (`m ≥ 1`). -/
def decExp (m : Nat) (e : Int) : Int :=
  if 0 ≤ e then (natLog 10 (m * 2 ^ e.toNat) : Int)
  else
    let f := (-e).toNat
    if 2 ^ f ≤ m then (natLog 10 (m / 2 ^ f) : Int)
    else
      let tf := 2 ^ f
      let L := natLog 10 (tf / m)
      let t := if tf ≤ m * 10 ^ L then L
               else if tf ≤ m * 10 ^ (L + 1) then L + 1 else L + 2
      Int.negOfNat t

/-- Does the decimal `D * 10^k` read back (by the same correctly rounded
conversion) as exactly the double `m * 2^e`? -/
def rtOk (m : Nat) (e : Int) (D : Nat) (k : Int) : Bool :=
  decide (floatMag D k = some (m, e))

/-- Shortest round-tripping decimal digits of the double `m * 2^e`
(David Gay's mode-0 `dtoa`, which CPython's `repr(float)` uses): for
`n = 1, 2, ...` significant digits try the two n-digit grid neighbours
of the value, nearer first (exact ties prefer the even digit string),
and return the first that reads back as the same double.  17 digits
always round-trip, so the fuel never runs out. -/
def sdLoop (m : Nat) (e E : Int) : Nat → Nat → Nat × Int
  | 0, _ => (1, 0)
  | fuel + 1, n =>
    let k : Int := E - (n : Int) + 1
    let num := m * 2 ^ e.toNat * 10 ^ (-k).toNat
    let den := 2 ^ (-e).toNat * 10 ^ k.toNat
    let D0 := num / den
    let r := num % den
    let first := if 2 * r < den then D0
                 else if den < 2 * r then D0 + 1
                 else if D0 % 2 = 0 then D0 else D0 + 1
    let second := if first = D0 then D0 + 1 else D0
    let good := fun (D : Nat) =>
      (decide (n = 1) || decide (D % 10 ≠ 0)) && rtOk m e D k
    if good first then (first, k)
    else if good second then (second, k)
    else sdLoop m e E fuel (n + 1)

/-- Strip trailing zero digits, moving them into the exponent (only the
power-of-ten rounding-up case produces any). -/
def stripZeros : Nat → Nat × Int → Nat × Int
  | 0, x => x
  | fuel + 1, (D, k) => if D % 10 = 0 ∧ 0 < D then stripZeros fuel (D / 10, k + 1) else (D, k)

/-- Decimal digit characters of `n`. -/
def natDigits (n : Nat) : List Char := (toString n).toList

/-- CPython `repr` of a finite float (shortest round-trip digits,
positional notation for decimal exponents in `[-4, 16)`, scientific
notation with a sign and at least two exponent digits otherwise). -/
def pyFloatRepr (sign : Bool) (m : Nat) (e : Int) : List Char :=
  let body :=
    if m = 0 then "0.0".toList
    else
      let Dk := stripZeros 20 (sdLoop m e (decExp m e) 25 1)
      let ds := natDigits Dk.1
      let E : Int := Dk.2 + (ds.length : Int) - 1
      if -4 ≤ E ∧ E < 16 then
        if E < 0 then '0' :: '.' :: (List.replicate (-E - 1).toNat '0' ++ ds)
        else if ds.length ≤ (E + 1).toNat then
          ds ++ List.replicate ((E + 1).toNat - ds.length) '0' ++ '.' :: ['0']
        else ds.take (E + 1).toNat ++ '.' :: ds.drop (E + 1).toNat
      else
        let mant := match ds with
          | [] => []
          | [d] => [d]
          | d :: rest => d :: '.' :: rest
        let a := natDigits E.natAbs
        let padded := if E.natAbs < 10 then '0' :: a else a
        mant ++ 'e' :: (if E < 0 then '-' else '+') :: padded
  if sign then '-' :: body else body

/-- `json.dumps` of a float: special names for non-finite values,
`repr` otherwise. -/
def floatStr : PyFloat → List Char
  | PyFloat.nan => "NaN".toList
  | PyFloat.inf false => "Infinity".toList
  | PyFloat.inf true => "-Infinity".toList
  | PyFloat.finite s m e => pyFloatRepr s m e

/-- JSON values as `json.loads` produces them: integral numbers are
Python `int` (`jint`), all other numbers and the constants `NaN`,
`Infinity`, `-Infinity` are Python floats (`jfloat`), and strings are
lists of code points (`List Nat`, so that the lone UTF-16 surrogates
Python's strict scanner accepts from `\uXXXX` escapes are
representable). -/
inductive Json where
  | jnull : Json
  | jbool : Bool → Json
  | jint : Int → Json
  | jfloat : PyFloat → Json
  | jstr : List Nat → Json
  | jarr : List Json → Json
  | jobj : List (List Nat × Json) → Json

/-- JSON whitespace `[ \t\n\r]`, as `json.decoder.WHITESPACE`. -/
def isJsonWs (c : Char) : Bool := c = ' ' || c = '\t' || c = '\n' || c = '\r'

/-- Skip JSON whitespace. -/
def skipWs (l : List Char) : List Char := l.dropWhile isJsonWs

/-- Value of one hexadecimal digit. -/
def hexVal (c : Char) : Option Nat :=
  if c.isDigit then some (c.toNat - 48)
  else if 'a' ≤ c && c ≤ 'f' then some (c.toNat - 87)
  else if 'A' ≤ c && c ≤ 'F' then some (c.toNat - 55)
  else none

/-- Four hexadecimal digits at the head of `l`. -/
def hex4 (l : List Char) : Option (Nat × List Char) :=
  match l with
  | a :: b :: c :: d :: r =>
    match hexVal a, hexVal b, hexVal c, hexVal d with
    | some x, some y, some z, some w => some (((x * 16 + y) * 16 + z) * 16 + w, r)
    | _, _, _, _ => none
  | _ => none

/-- Python `json` string scanner (strict mode), positioned after the
opening quote: decoded code points and the rest after the closing
quote.  Raw control characters and invalid escapes are rejected; a
`\uXXXX` high surrogate followed by a low-surrogate escape is combined
into one astral code point, and otherwise surrogates are kept as lone
code points, exactly as CPython's scanner does (including the error
when the lookahead after a high surrogate starts with `\u` but carries
invalid hex digits). -/
def parseJString : Nat → List Char → Option (List Nat × List Char)
  | 0, _ => none
  | fuel + 1, l =>
    match l with
    | [] => none
    | '"' :: r => some ([], r)
    | '\\' :: e :: r =>
      if e = '"' || e = '\\' || e = '/' then
        (parseJString fuel r).map (fun pr => (e.toNat :: pr.1, pr.2))
      else if e = 'b' then (parseJString fuel r).map (fun pr => (8 :: pr.1, pr.2))
      else if e = 'f' then (parseJString fuel r).map (fun pr => (12 :: pr.1, pr.2))
      else if e = 'n' then (parseJString fuel r).map (fun pr => (10 :: pr.1, pr.2))
      else if e = 'r' then (parseJString fuel r).map (fun pr => (13 :: pr.1, pr.2))
      else if e = 't' then (parseJString fuel r).map (fun pr => (9 :: pr.1, pr.2))
      else if e = 'u' then
        match hex4 r with
        | some (n, r2) =>
          if 0xd800 ≤ n && n ≤ 0xdbff then
            match r2 with
            | '\\' :: 'u' :: r3 =>
              match hex4 r3 with
              | some (n2, r4) =>
                if 0xdc00 ≤ n2 && n2 ≤ 0xdfff then
                  let code := 0x10000 + (n - 0xd800) * 0x400 + (n2 - 0xdc00)
                  (parseJString fuel r4).map (fun pr => (code :: pr.1, pr.2))
                else (parseJString fuel r2).map (fun pr => (n :: pr.1, pr.2))
              | none => none
            | _ => (parseJString fuel r2).map (fun pr => (n :: pr.1, pr.2))
          else (parseJString fuel r2).map (fun pr => (n :: pr.1, pr.2))
        | none => none
      else none
    | c :: r =>
      if c.toNat < 0x20 then none
      else (parseJString fuel r).map (fun pr => (c.toNat :: pr.1, pr.2))

/-- JSON integer part `(?:0|[1-9]\d*)`. -/
def parseIntPart : List Char → Option (List Char × List Char)
  | [] => none
  | c :: r =>
    if c = '0' then some (['0'], r)
    else if c.isDigit then
      some (c :: r.takeWhile Char.isDigit, r.dropWhile Char.isDigit)
    else none

/-- Decimal digits to a natural number. -/
def digitsToNat (ds : List Char) : Nat :=
  ds.foldl (fun acc c => acc * 10 + (c.toNat - 48)) 0

/-- JSON number at the head of `l`, following Python's `NUMBER_RE`
`(-?(?:0|[1-9]\d*))(\.\d+)?([eE][-+]?\d+)?`: an integral match becomes
`jint` (Python `int`), a match with a fraction or exponent becomes the
correctly rounded `float` of its digits. -/
def parseNumber (l : List Char) : Option (Json × List Char) :=
  let signed : Option (Bool × List Char × List Char) := match l with
    | '-' :: r => (parseIntPart r).map (fun pr => (true, pr.1, pr.2))
    | _ => (parseIntPart l).map (fun pr => (false, pr.1, pr.2))
  match signed with
  | none => none
  | some (neg, ds, r1) =>
    let frac : List Char × List Char :=
      match r1 with
      | '.' :: fr =>
        let fd := fr.takeWhile Char.isDigit
        if fd.isEmpty then ([], r1) else (fd, fr.drop fd.length)
      | _ => ([], r1)
    let ex : Option (Bool × List Char) × List Char :=
      match frac.2 with
      | e :: tl =>
        if e = 'e' || e = 'E' then
          match tl with
          | s :: tl2 =>
            if s = '+' || s = '-' then
              let ed := tl2.takeWhile Char.isDigit
              if ed.isEmpty then (none, frac.2) else (some (s = '-', ed), tl2.drop ed.length)
            else
              let ed := tl.takeWhile Char.isDigit
              if ed.isEmpty then (none, frac.2) else (some (false, ed), tl.drop ed.length)
          | [] => (none, frac.2)
        else (none, frac.2)
      | [] => (none, frac.2)
    if frac.1.isEmpty && ex.1.isNone then
      let n : Int := Int.ofNat (digitsToNat ds)
      some (Json.jint (if neg then -n else n), r1)
    else
      let D := digitsToNat (ds ++ frac.1)
      let X : Int := match ex.1 with
        | some (eneg, edt) =>
          if eneg then Int.negOfNat (digitsToNat edt) else Int.ofNat (digitsToNat edt)
        | none => 0
      let p : Int := X - Int.ofNat frac.1.length
      some (Json.jfloat (floatOfDigits neg D p), ex.2)

/-- Python `dict(pairs)` insertion: a repeated key keeps its first
position and takes the latest value. -/
def objInsert (fs : List (List Nat × Json)) (k : List Nat) (v : Json) :
    List (List Nat × Json) :=
  if fs.any (fun p => p.1 = k) then
    fs.map (fun p => if p.1 = k then (k, v) else p)
  else fs ++ [(k, v)]

/-- Array elements after the opening bracket and whitespace, given the
value parser `pv` (the list is known non-empty here). -/
def parseItems (pv : List Char → Option (Json × List Char)) :
    Nat → List Json → List Char → Option (List Json × List Char)
  | 0, _, _ => none
  | fuel + 1, acc, l =>
    match pv l with
    | some (v, r) =>
      match skipWs r with
      | ']' :: r2 => some (acc ++ [v], r2)
      | ',' :: r2 => parseItems pv fuel (acc ++ [v]) (skipWs r2)
      | _ => none
    | none => none

/-- Object members positioned at the opening quote of a key, given the
value parser `pv`. -/
def parseMembers (pv : List Char → Option (Json × List Char)) :
    Nat → List (List Nat × Json) → List Char →
    Option (List (List Nat × Json) × List Char)
  | 0, _, _ => none
  | fuel + 1, acc, l =>
    match l with
    | '"' :: r =>
      match parseJString (r.length + 1) r with
      | some (k, r1) =>
        match skipWs r1 with
        | ':' :: r3 =>
          match pv (skipWs r3) with
          | some (v, r4) =>
            match skipWs r4 with
            | '\x7d' :: r6 => some (objInsert acc k v, r6)
            | ',' :: r6 =>
              match skipWs r6 with
              | '"' :: _ => parseMembers pv fuel (objInsert acc k v) (skipWs r6)
              | _ => none
            | _ => none
          | none => none
        | _ => none
      | none => none
    | _ => none

/-- Python `json` value scanner (`scan_once`): `(value, rest)`. -/
def parseValue : Nat → List Char → Option (Json × List Char)
  | 0, _ => none
  | fuel + 1, l =>
    match l with
    | [] => none
    | c :: cs =>
      if c = '"' then
        (parseJString (cs.length + 1) cs).map (fun pr => (Json.jstr pr.1, pr.2))
      else if c = '\x7b' then
        match skipWs cs with
        | '\x7d' :: r2 => some (Json.jobj [], r2)
        | '"' :: r => (parseMembers (parseValue fuel) (r.length + 1) [] ('"' :: r)).map
            (fun pr => (Json.jobj pr.1, pr.2))
        | _ => none
      else if c = '[' then
        match skipWs cs with
        | ']' :: r2 => some (Json.jarr [], r2)
        | r => (parseItems (parseValue fuel) (r.length + 1) [] r).map
            (fun pr => (Json.jarr pr.1, pr.2))
      else if c = 'n' && "ull".toList.isPrefixOf cs then some (Json.jnull, cs.drop 3)
      else if c = 't' && "rue".toList.isPrefixOf cs then some (Json.jbool true, cs.drop 3)
      else if c = 'f' && "alse".toList.isPrefixOf cs then some (Json.jbool false, cs.drop 4)
      else
        match parseNumber (c :: cs) with
        | some res => some res
        | none =>
          if c = 'N' && "aN".toList.isPrefixOf cs then
            some (Json.jfloat PyFloat.nan, cs.drop 2)
          else if c = 'I' && "nfinity".toList.isPrefixOf cs then
            some (Json.jfloat (PyFloat.inf false), cs.drop 7)
          else if c = '-' && "Infinity".toList.isPrefixOf cs then
            some (Json.jfloat (PyFloat.inf true), cs.drop 8)
          else none

/-- Python `json.loads` on a string: leading and trailing whitespace
allowed, anything further is "Extra data" (an error). -/
def json_loads (s : String) : Option Json :=
  let l := skipWs s.toList
  match parseValue (l.length + 1) l with
  | some (v, r) => if (skipWs r).isEmpty then some v else none
  | none => none

/-- Lowercase hexadecimal digit. -/
def hexDigit (n : Nat) : Char :=
  if n < 10 then Char.ofNat (48 + n) else Char.ofNat (87 + n)

/-- Four lowercase hexadecimal digits of `n < 0x10000`. -/
def toHex4 (n : Nat) : List Char :=
  [hexDigit (n / 4096 % 16), hexDigit (n / 256 % 16), hexDigit (n / 16 % 16),
   hexDigit (n % 16)]

/-- One code point as `json.dumps` (default `ensure_ascii=True`) writes
it inside a string literal: named escapes, printable ASCII verbatim,
`\uXXXX` for everything else (astral code points as a surrogate
pair). -/
def escCode (n : Nat) : List Char :=
  if n = 34 then ['\\', '"']
  else if n = 92 then ['\\', '\\']
  else if n = 10 then ['\\', 'n']
  else if n = 13 then ['\\', 'r']
  else if n = 9 then ['\\', 't']
  else if n = 8 then ['\\', 'b']
  else if n = 12 then ['\\', 'f']
  else if 0x20 ≤ n && n < 0x7f then [Char.ofNat n]
  else if n < 0x10000 then '\\' :: 'u' :: toHex4 n
  else
    let v := n - 0x10000
    '\\' :: 'u' :: (toHex4 (0xd800 + v / 0x400) ++ '\\' :: 'u' :: toHex4 (0xdc00 + v % 0x400))

/-- A `json.dumps` string literal. -/
def jstrDump (s : List Nat) : List Char :=
  '"' :: ((s.map escCode).flatten ++ ['"'])

/-- Join with a separator. -/
def sepJoin (sep : List Char) : List (List Char) → List Char
  | [] => []
  | [x] => x
  | x :: y :: t => x ++ sep ++ sepJoin sep (y :: t)

/-- Python `json.dumps` with its defaults (separators `", "` and `": "`,
insertion order kept, `ensure_ascii`).  Structural recursion through the
nested lists goes by fuel; callers pass fuel exceeding the value's depth
(for parsed values, the source text's length suffices). -/
def dumpJson : Nat → Json → List Char
  | 0, _ => []
  | _ + 1, Json.jnull => "null".toList
  | _ + 1, Json.jbool true => "true".toList
  | _ + 1, Json.jbool false => "false".toList
  | _ + 1, Json.jint n => (toString n).toList
  | _ + 1, Json.jfloat f => floatStr f
  | _ + 1, Json.jstr s => jstrDump s
  | fuel + 1, Json.jarr xs =>
    '[' :: (sepJoin ", ".toList (xs.map (dumpJson fuel)) ++ [']'])
  | fuel + 1, Json.jobj fs =>
    '\x7b' :: (sepJoin ", ".toList
      (fs.map (fun kv => jstrDump kv.1 ++ ':' :: ' ' :: dumpJson fuel kv.2)) ++ ['\x7d'])

/-- Case-sensitive substring test (Python's `in` on strings). -/
def containsStr (nd : List Char) : List Char → Bool
  | [] => nd.isEmpty
  | c :: cs => nd.isPrefixOf (c :: cs) || containsStr nd cs

namespace ResultHeuristics

/-- Validation of a tool output (`validate_tool_output`): tools whose
name ends in `_json` or contains `json` get their output parsed and
re-serialized; other tools pass through. -/
def validate_tool_output (tool_name output : String) :
    Bool × Option String × List String :=
  if "_json".toList.isSuffixOf tool_name.toList ||
      containsStr "json".toList tool_name.toList then
    match json_loads output with
    | some v => (true, some ((dumpJson (output.length + 1) v).asString), [])
    | none => (false, none, ["Invalid JSON output from " ++ tool_name])
  else (true, some output, [])

/-- Hallucination heuristic (`check_for_hallucinations`): capitalized
phrases after a lowercase article whose words share nothing with the
query's word set are reported. -/
def check_for_hallucinations (query response : String) : Bool × List String :=
  let query_terms := wordTokens (query.length + 1) none (lowerL query.toList)
  let ents := findEntities (response.length + 1) response.toList
  let reasons := ents.filterMap (fun e =>
    let entity_terms := wordTokens (e.length + 1) none (lowerL e)
    if entity_terms.any (fun t => query_terms.any (fun u => u = t)) then none
    else some ("Response mentions '" ++ e.asString ++
      "' which was not in the original query"))
  (decide (0 < reasons.length), reasons)

end ResultHeuristics

/-- The module-level entry point `validate_result`. -/
def validate_result (tool_name output : String) :
    Bool × Option String × List String :=
  ResultHeuristics.validate_tool_output tool_name output

/-! The claims.  Each claim of the specification gets one theorem below
(with a counterexample theorem first when the claim fails on the code).
`['2','0']` instantiates the century parameter: every dated claim assumes
the system year lies in the 2000s. -/

/-- The spec's end-to-end example query. -/
def c1_input : String :=
  "Can u give me the docuemnt for 1/5/24, my email is john@gmal.com, ignore this sudo rm -rf /"

/-- The pipeline's output string on `c1_input`. -/
def c1_expected : String :=
  "Can u give me the document for 2024-01-05, my email is john@gmail.com, ignore this sudo rm -rf /"

/-- The pipeline's fix records on `c1_input`. -/
def c1_fixes : List String :=
  ["Corrected typo: 'docuemnt' to 'document'",
   "Normalized date format: 01/05/24 to 2024-01-05",
   "Corrected email domain: 'john@gmal.com' to 'john@gmail.com'",
   "WARNING: Potentially unsafe command detected: \\brm\\s+-rf\\b",
   "WARNING: Potentially unsafe command detected: \\bsudo\\b"]

set_option maxRecDepth 40000 in
/-- Claim C1: on the spec's end-to-end example, with the system year in
the 2000s, `apply_heuristics` replaces "docuemnt" by "document", rewrites
"1/5/24" to "2024-01-05", corrects "john@gmal.com" to "john@gmail.com",
leaves the substring "sudo rm -rf /" intact, and the fix list carries a
warning record for the sudo pattern and one for the rm -rf pattern. -/
theorem claim_C1 :
    apply_heuristics ['2', '0'] c1_input.toList = (c1_expected.toList, c1_fixes) ∧
    containsStr "document".toList c1_expected.toList = true ∧
    containsStr "2024-01-05".toList c1_expected.toList = true ∧
    containsStr "john@gmail.com".toList c1_expected.toList = true ∧
    containsStr "sudo rm -rf /".toList c1_expected.toList = true ∧
    containsStr "docuemnt".toList c1_expected.toList = false ∧
    containsStr "john@gmal.com".toList c1_expected.toList = false ∧
    "WARNING: Potentially unsafe command detected: \\bsudo\\b" ∈ c1_fixes ∧
    "WARNING: Potentially unsafe command detected: \\brm\\s+-rf\\b" ∈ c1_fixes := by
  decide

/-- Claim C4: length capping never exceeds `max_length + 3` characters,
and it is a complete no-op (no fix record) at or under the limit. -/
theorem claim_C4 (query : List Char) (max_length : Nat) :
    (QueryHeuristics.limit_query_length query max_length).1.length ≤ max_length + 3 ∧
    (query.length ≤ max_length →
      QueryHeuristics.limit_query_length query max_length = (query, [])) := by
  constructor
  · unfold QueryHeuristics.limit_query_length
    by_cases h : max_length < query.length
    · rw [if_pos h]
      simp only [List.length_append, List.length_take]
      have h3 : ("...".toList).length = 3 := by decide
      omega
    · rw [if_neg h]
      exact Nat.le_trans (Nat.le_of_not_lt h) (Nat.le_add_right _ 3)
  · intro hle
    unfold QueryHeuristics.limit_query_length
    rw [if_neg (by omega)]

/-- Claim C4 witness: the theorem applied at a concrete in-limit input. -/
theorem claim_C4_witness :
    QueryHeuristics.limit_query_length "abc".toList 500 = ("abc".toList, []) :=
  (claim_C4 "abc".toList 500).2 (by decide)

/-- Claim C6 counterexample: the claim predicts that only the first
occurrence of a corrected email is replaced; in fact `str.replace`
rewrites every occurrence, so on a query holding the same typo'd email
twice both get corrected. -/
theorem claim_C6_counterexample :
    (QueryHeuristics.validate_email_format "mail a@gmal.com and a@gmal.com".toList).1 =
      "mail a@gmail.com and a@gmail.com".toList ∧
    ¬(QueryHeuristics.validate_email_format "mail a@gmal.com and a@gmal.com".toList).1 =
      "mail a@gmail.com and a@gmal.com".toList := by
  decide

/-- Claim C6 amended: the replacement is global — every occurrence of the
full email address is rewritten (and the found-email list, which repeats
the address, yields one fix record per extracted occurrence). -/
theorem claim_C6_amended :
    QueryHeuristics.validate_email_format "x b@yaho.com y b@yaho.com".toList =
      ("x b@yahoo.com y b@yahoo.com".toList,
       ["Corrected email domain: 'b@yaho.com' to 'b@yahoo.com'",
        "Corrected email domain: 'b@yaho.com' to 'b@yahoo.com'"]) := by
  decide

/-- Claim C7 counterexample: a currency amount without thousands
separators still produces a fix record (the regex's `\d+` alternative
matches it and the replacer reports a no-op normalization). -/
theorem claim_C7_counterexample :
    QueryHeuristics.normalize_numeric_values "$123".toList =
      ("$123".toList, ["Normalized currency value: $123 to $123"]) ∧
    ¬(QueryHeuristics.normalize_numeric_values "$123".toList).2 = [] := by
  decide

/-- Claim C7 amended: separator-bearing amounts are rewritten with the
separators stripped and the decimal part kept, with one fix record per
matched amount — including separator-free amounts, which stay textually
unchanged yet still emit a (no-op) record. -/
theorem claim_C7_amended :
    QueryHeuristics.normalize_numeric_values "pay $1,234.50 and $99".toList =
      ("pay $1234.50 and $99".toList,
       ["Normalized currency value: $1,234.50 to $1234.50",
        "Normalized currency value: $99 to $99"]) := by
  decide

/-- Claim C10 counterexample: the claim predicts "99/99/9999" becomes
"9999-99-99"; in fact the year group `(\d{2}|\d{4})` always takes two
digits (nothing follows it), so the code produces "2099-99-9999". -/
theorem claim_C10_counterexample :
    (QueryHeuristics.normalize_date_formats ['2', '0'] "99/99/9999".toList).1 =
      "2099-99-9999".toList ∧
    ¬(QueryHeuristics.normalize_date_formats ['2', '0'] "99/99/9999".toList).1 =
      "9999-99-99".toList := by
  decide

/-- Claim C10 amended: no calendar validation happens (month 99 and day
99 are accepted and zero-padded), but the year group always matches
exactly two digits and is century-expanded, so a four-digit year is split:
"99/99/99" yields "2099-99-99", "99/99/9999" yields "2099-99-9999", and
even "12/31/2024" yields "2020-12-3124". -/
theorem claim_C10_amended :
    QueryHeuristics.normalize_date_formats ['2', '0'] "99/99/99".toList =
      ("2099-99-99".toList, ["Normalized date format: 99/99/99 to 2099-99-99"]) ∧
    QueryHeuristics.normalize_date_formats ['2', '0'] "99/99/9999".toList =
      ("2099-99-9999".toList, ["Normalized date format: 99/99/99 to 2099-99-99"]) ∧
    QueryHeuristics.normalize_date_formats ['2', '0'] "12/31/2024".toList =
      ("2020-12-3124".toList, ["Normalized date format: 12/31/20 to 2020-12-31"]) := by
  decide

/-- Folding the warning-appending step equals filtering the matching
patterns and mapping the warning message over them. -/
theorem foldl_warn_eq (q : List Char) (w : String → String) :
    ∀ (l : List (String × (List Char → Bool))) (acc : List String),
      l.foldl (fun acc pr => if pr.2 q then acc ++ [w pr.1] else acc) acc =
        acc ++ (l.filter (fun pr => pr.2 q)).map (fun pr => w pr.1)
  | [], acc => by simp
  | pr :: t, acc => by
    by_cases h : pr.2 q = true
    · simp only [List.foldl_cons, h, if_pos, List.filter_cons_of_pos, List.map_cons]
      rw [foldl_warn_eq q w t (acc ++ [w pr.1])]
      simp
    · simp only [List.foldl_cons, h, if_neg, Bool.false_eq_true, not_false_iff,
        List.filter_cons_of_neg]
      exact foldl_warn_eq q w t acc

/-- Claim C8: `detect_unsafe_commands` returns the query unchanged for
every input; its only effect is the fix list, one warning record per
unsafe pattern whose (case-insensitive) search matches. -/
theorem claim_C8 (query : List Char) :
    (QueryHeuristics.detect_unsafe_commands query).1 = query ∧
    (QueryHeuristics.detect_unsafe_commands query).2 =
      (QueryHeuristics.unsafe_patterns.filter (fun pr => pr.2 query)).map
        (fun pr => "WARNING: Potentially unsafe command detected: " ++ pr.1) := by
  refine ⟨rfl, ?_⟩
  unfold QueryHeuristics.detect_unsafe_commands
  exact foldl_warn_eq query
    (fun s => "WARNING: Potentially unsafe command detected: " ++ s)
    QueryHeuristics.unsafe_patterns []

/-- Claim C3: `validate_result` on JSON-named tools.  The spec's two
concrete cases hold, and in general (for any tool whose name ends in
`_json` or contains `json`) a parse failure yields invalidity with no
corrected output and one diagnostic naming the tool, while a parse
success yields validity, the re-serialized canonical JSON string, and no
messages. -/
theorem claim_C3 :
    validate_result "get_data_json" "\x7binvalid" =
      (false, none, ["Invalid JSON output from get_data_json"]) ∧
    validate_result "get_data_json" "\x7b\"a\":1\x7d" =
      (true, some "\x7b\"a\": 1\x7d", []) ∧
    ∀ tool_name output : String,
      ("_json".toList.isSuffixOf tool_name.toList ||
        containsStr "json".toList tool_name.toList) = true →
        (json_loads output = none →
          validate_result tool_name output =
            (false, none, ["Invalid JSON output from " ++ tool_name])) ∧
        (∀ v, json_loads output = some v →
          validate_result tool_name output =
            (true, some ((dumpJson (output.length + 1) v).asString), [])) := by
  refine ⟨by decide, by decide, ?_⟩
  intro tool_name output hname
  unfold validate_result ResultHeuristics.validate_tool_output
  rw [if_pos hname]
  constructor
  · intro hp
    rw [hp]
  · intro v hp
    rw [hp]

set_option maxRecDepth 20000 in
/-- Claim C3 witness: the general part of the theorem applied to a
concrete JSON-named tool and a concrete parse success whose document
holds a non-integral number (`1.50` re-serializes as `1.5`, as Python's
`repr(float)` does). -/
theorem claim_C3_witness :
    validate_result "x_json" "[1.50, 2]" = (true, some "[1.5, 2]", []) := by
  have h := (claim_C3.2.2 "x_json" "[1.50, 2]" (by decide)).2
    (Json.jarr [Json.jfloat (floatOfDigits false 150 (-2)), Json.jint 2]) (by rfl)
  exact h.trans (by decide)

/-- Claim C5 counterexample: the claim predicts that
`check_for_hallucinations("tell me about the weather", "The Eiffel Tower
is tall.")` flags "Eiffel Tower"; in fact the article alternatives
`the|an?` are lowercase literals matched case-sensitively, the
response's "The" never matches, no entity is extracted, and the call
returns `(false, [])`. -/
theorem claim_C5_counterexample :
    ResultHeuristics.check_for_hallucinations "tell me about the weather"
      "The Eiffel Tower is tall." = (false, []) := by
  decide

/-- Claim C5 amended: with a lowercase article the phrase is flagged as
claimed, and in general the flag is true iff some extracted
capitalized phrase (following a lowercase article) shares no lowercased
token with the query's token set. -/
theorem claim_C5_amended :
    ResultHeuristics.check_for_hallucinations "tell me about the weather"
      "the Eiffel Tower is tall." =
      (true, ["Response mentions 'Eiffel Tower' which was not in the original query"]) ∧
    ∀ query response : String,
      ((ResultHeuristics.check_for_hallucinations query response).1 = true ↔
        ∃ e ∈ findEntities (response.length + 1) response.toList,
          ∀ t ∈ wordTokens (e.length + 1) none (lowerL e),
            t ∉ wordTokens (query.length + 1) none (lowerL query.toList)) := by
  refine ⟨by decide, ?_⟩
  intro query response
  simp only [ResultHeuristics.check_for_hallucinations, decide_eq_true_eq]
  rw [List.length_pos_iff_exists_mem]
  constructor
  · rintro ⟨x, hx⟩
    rcases List.mem_filterMap.mp hx with ⟨e, he, hfe⟩
    refine ⟨e, he, ?_⟩
    by_cases hc :
        ((wordTokens (e.length + 1) none (lowerL e)).any (fun t =>
          (wordTokens (query.length + 1) none (lowerL query.toList)).any
            (fun u => u = t))) = true
    · rw [if_pos hc] at hfe
      exact absurd hfe (by simp)
    · intro t ht hq
      apply hc
      simp only [List.any_eq_true, decide_eq_true_eq]
      exact ⟨t, ht, t, hq, rfl⟩
  · rintro ⟨e, he, hcond⟩
    refine ⟨"Response mentions '" ++ e.asString ++
      "' which was not in the original query", List.mem_filterMap.mpr ⟨e, he, ?_⟩⟩
    rw [if_neg ?_]
    intro hc
    simp only [List.any_eq_true, decide_eq_true_eq] at hc
    obtain ⟨t, ht, u, hu, hut⟩ := hc
    exact hcond t ht (hut ▸ hu)

/-! Machinery for the idempotence of whitespace normalization
(claim C9).  `collapseWS false` produces a string whose space characters
are all the plain space, with no two adjacent; `pyStrip` then removes
the boundary spaces; on such a string both operations are the
identity. -/

/-- No two adjacent space characters. -/
def noTwoSp (a b : Char) : Prop := (isSpaceChar a && isSpaceChar b) = false

/-- Every space character of the list is a plain space. -/
def allPlainSp (l : List Char) : Prop :=
  ∀ c ∈ l, isSpaceChar c = true → c = ' '

/-- The head, when present, is not a space character. -/
def headNonSp (l : List Char) : Prop :=
  ∀ c, l.head? = some c → isSpaceChar c = false

theorem collapseWS_allPlainSp : ∀ (q : List Char) (b : Bool),
    allPlainSp (collapseWS b q)
  | [], _ => by intro c hc; simp [collapseWS] at hc
  | c :: cs, b => by
    intro d hd hsp
    unfold collapseWS at hd
    by_cases h : isSpaceChar c = true
    · rw [if_pos h] at hd
      cases b with
      | true => exact collapseWS_allPlainSp cs true d (by simpa using hd) hsp
      | false =>
        simp only [Bool.false_eq_true, ite_false] at hd
        rcases List.mem_cons.mp hd with rfl | hd'
        · rfl
        · exact collapseWS_allPlainSp cs true d hd' hsp
    · rw [if_neg h] at hd
      rcases List.mem_cons.mp hd with rfl | hd'
      · exact absurd hsp h
      · exact collapseWS_allPlainSp cs false d hd' hsp

theorem collapseWS_true_headNonSp : ∀ (q : List Char),
    headNonSp (collapseWS true q)
  | [] => by intro c hc; simp [collapseWS] at hc
  | c :: cs => by
    intro d hd
    unfold collapseWS at hd
    by_cases h : isSpaceChar c = true
    · rw [if_pos h] at hd
      exact collapseWS_true_headNonSp cs d (by simpa using hd)
    · rw [if_neg h] at hd
      simp only [List.head?_cons, Option.some.injEq] at hd
      subst hd
      exact eq_false_of_ne_true h

theorem collapseWS_chain : ∀ (q : List Char) (b : Bool),
    List.Chain' noTwoSp (collapseWS b q)
  | [], _ => by simp [collapseWS]
  | c :: cs, b => by
    unfold collapseWS
    by_cases h : isSpaceChar c = true
    · rw [if_pos h]
      cases b with
      | true => simpa using collapseWS_chain cs true
      | false =>
        simp only [Bool.false_eq_true, ite_false]
        rw [List.chain'_cons']
        refine ⟨?_, collapseWS_chain cs true⟩
        intro y hy
        have := collapseWS_true_headNonSp cs y hy
        simp [noTwoSp, this]
    · rw [if_neg h]
      rw [List.chain'_cons']
      refine ⟨?_, collapseWS_chain cs false⟩
      intro y _
      simp [noTwoSp, eq_false_of_ne_true h]

theorem collapseWS_id : ∀ (q : List Char) (b : Bool),
    allPlainSp q → List.Chain' noTwoSp q → (b = true → headNonSp q) →
    collapseWS b q = q
  | [], _, _, _, _ => rfl
  | c :: cs, b, hall, hch, hhd => by
    have htail_all : allPlainSp cs := fun d hd => hall d (List.mem_cons_of_mem c hd)
    unfold collapseWS
    by_cases h : isSpaceChar c = true
    · have hc : c = ' ' := hall c (List.mem_cons_self c cs) h
      cases b with
      | true => exact absurd (hhd rfl c rfl) (by simp [h])
      | false =>
        simp only [if_pos h, Bool.false_eq_true, ite_false]
        have hcs_head : headNonSp cs := by
          intro d hd
          have hr := (List.chain'_cons'.mp hch).1 d hd
          simp only [noTwoSp, h, Bool.true_and] at hr
          exact hr
        have htail : collapseWS true cs = cs :=
          collapseWS_id cs true htail_all hch.tail (fun _ => hcs_head)
        rw [htail, hc]
    · rw [if_neg h]
      have htail : collapseWS false cs = cs :=
        collapseWS_id cs false htail_all hch.tail
          (fun hb => absurd hb (by simp))
      rw [htail]

theorem dropWhile_headNonSp (l : List Char) :
    headNonSp (l.dropWhile isSpaceChar) := by
  induction l with
  | nil => intro c hc; simp at hc
  | cons c cs ih =>
    intro d hd
    rw [List.dropWhile_cons] at hd
    by_cases h : isSpaceChar c = true
    · rw [if_pos h] at hd
      exact ih d hd
    · rw [if_neg h] at hd
      simp only [List.head?_cons, Option.some.injEq] at hd
      subst hd
      exact eq_false_of_ne_true h

theorem dropWhile_chain {R : Char → Char → Prop} (p : Char → Bool) :
    ∀ (l : List Char), List.Chain' R l → List.Chain' R (l.dropWhile p)
  | [], _ => List.chain'_nil
  | c :: cs, h => by
    rw [List.dropWhile_cons]
    by_cases hp : p c = true
    · rw [if_pos hp]
      exact dropWhile_chain p cs h.tail
    · rw [if_neg hp]
      exact h

theorem pyStrip_id (l : List Char) (h1 : headNonSp l) (h2 : headNonSp l.reverse) :
    pyStrip l = l := by
  unfold pyStrip
  have hd1 : l.dropWhile isSpaceChar = l := by
    cases l with
    | nil => rfl
    | cons c cs =>
      rw [List.dropWhile_cons, if_neg]
      simp [h1 c rfl]
  rw [hd1]
  have hd2 : l.reverse.dropWhile isSpaceChar = l.reverse := by
    cases hr : l.reverse with
    | nil => simp
    | cons c cs =>
      rw [List.dropWhile_cons, if_neg]
      simp [h2 c (by rw [hr]; rfl)]
  rw [hd2, List.reverse_reverse]

/-- Claim C9: whitespace normalization is idempotent, and its second
application emits no fix record. -/
theorem claim_C9 (query : List Char) :
    QueryHeuristics.remove_excessive_whitespace
        (QueryHeuristics.remove_excessive_whitespace query).1 =
      ((QueryHeuristics.remove_excessive_whitespace query).1, []) := by
  have hM : (QueryHeuristics.remove_excessive_whitespace query).1 =
      pyStrip (collapseWS false query) := rfl
  set M := collapseWS false query with hMdef
  set N := pyStrip M with hNdef
  -- Properties of M
  have hMall : allPlainSp M := collapseWS_allPlainSp query false
  have hMch : List.Chain' noTwoSp M := collapseWS_chain query false
  -- N is pyStrip M; work out its structure
  have hM1 : headNonSp (M.dropWhile isSpaceChar) := dropWhile_headNonSp M
  have hM1ch : List.Chain' noTwoSp (M.dropWhile isSpaceChar) :=
    dropWhile_chain isSpaceChar M hMch
  set M1 := M.dropWhile isSpaceChar with hM1def
  set M2 := M1.reverse.dropWhile isSpaceChar with hM2def
  have hNeq : N = M2.reverse := rfl
  have hM2suffix : M2 <:+ M1.reverse := List.dropWhile_suffix isSpaceChar
  have hNpre : N <+: M1 := by
    rw [hNeq, ← List.reverse_suffix]
    simpa using hM2suffix
  -- head of N is not a space
  have hNhead : headNonSp N := by
    intro c hc
    apply hM1 c
    rcases hNpre with ⟨t, ht⟩
    rw [← ht]
    cases hN : N with
    | nil => rw [hN] at hc; exact absurd hc (by simp)
    | cons d ds =>
      rw [hN] at hc
      simp only [List.head?_cons, Option.some.injEq] at hc
      simp [hc]
  -- head of N.reverse is not a space
  have hNrevHead : headNonSp N.reverse := by
    rw [hNeq, List.reverse_reverse]
    exact dropWhile_headNonSp M1.reverse
  -- every space in N is plain, N has no two adjacent spaces
  have hNall : allPlainSp N := by
    intro c hc hsp
    apply hMall c _ hsp
    have h1 : c ∈ M1 := hNpre.subset hc
    exact (List.dropWhile_suffix isSpaceChar).subset h1
  have hNch : List.Chain' noTwoSp N := by
    have hrev : List.Chain' noTwoSp M1.reverse := by
      rw [List.chain'_reverse]
      apply hM1ch.imp
      intro a b hab
      show noTwoSp b a
      simp only [noTwoSp] at hab ⊢
      rw [Bool.and_comm]
      exact hab
    have hM2ch : List.Chain' noTwoSp M2 := dropWhile_chain isSpaceChar M1.reverse hrev
    rw [hNeq, List.chain'_reverse]
    apply hM2ch.imp
    intro a b hab
    show noTwoSp b a
    simp only [noTwoSp] at hab ⊢
    rw [Bool.and_comm]
    exact hab
  -- both passes are the identity on N
  have hcoll : collapseWS false N = N :=
    collapseWS_id N false hNall hNch (fun hb => absurd hb (by simp))
  have hstrip : pyStrip N = N := pyStrip_id N hNhead hNrevHead
  have hfin : QueryHeuristics.remove_excessive_whitespace N = (N, []) := by
    unfold QueryHeuristics.remove_excessive_whitespace
    rw [hcoll, hstrip]
    simp
  rw [hM]
  exact hfin
theorem toNat_ofNat_small (n : Nat) (h : n < 55296) : (Char.ofNat n).toNat = n := by
  unfold Char.ofNat
  rw [dif_pos]
  · rfl
  · exact Or.inl (by omega)

theorem isWordChar_iff {c : Char} : isWordChar c = true ↔
    (65 ≤ c.toNat ∧ c.toNat ≤ 90) ∨ (97 ≤ c.toNat ∧ c.toNat ≤ 122) ∨
    (48 ≤ c.toNat ∧ c.toNat ≤ 57) ∨ c.toNat = 95 := by
  have h95 : (c = '_') ↔ c.toNat = 95 := by
    rw [Char.ext_iff, UInt32.ext_iff]
    rfl
  have e65 : (UInt32.toBitVec 65).toNat = 65 := by decide
  have e90 : (UInt32.toBitVec 90).toNat = 90 := by decide
  have e97 : (UInt32.toBitVec 97).toNat = 97 := by decide
  have e122 : (UInt32.toBitVec 122).toNat = 122 := by decide
  have e48 : (UInt32.toBitVec 48).toNat = 48 := by decide
  have e57 : (UInt32.toBitVec 57).toNat = 57 := by decide
  unfold isWordChar Char.isAlpha Char.isUpper Char.isLower Char.isDigit
  simp only [Bool.or_eq_true, decide_eq_true_eq, Bool.and_eq_true, ge_iff_le,
    UInt32.le_def, BitVec.le_def, h95, e65, e90, e97, e122, e48, e57]
  have ec : c.val.toBitVec.toNat = c.toNat := rfl
  rw [ec]
  tauto

theorem isWordChar_toLower (c : Char) : isWordChar (Char.toLower c) = isWordChar c := by
  unfold Char.toLower
  by_cases h : c.toNat ≥ 65 ∧ c.toNat ≤ 90
  · rw [if_pos h]
    have ht : (Char.ofNat (c.toNat + 32)).toNat = c.toNat + 32 :=
      toNat_ofNat_small _ (by omega)
    rw [Bool.eq_iff_iff, isWordChar_iff, isWordChar_iff, ht]
    omega
  · rw [if_neg h]

theorem ciEq_isWordChar {a b : Char} (h : ciEq a b = true) :
    isWordChar a = isWordChar b := by
  have h' : Char.toLower a = Char.toLower b := of_decide_eq_true h
  rw [← isWordChar_toLower a, h', isWordChar_toLower b]

theorem ciEq_symm (a b : Char) : ciEq a b = ciEq b a := by
  rw [Bool.eq_iff_iff]
  simp only [ciEq, lowerC, decide_eq_true_eq]
  exact ⟨Eq.symm, Eq.symm⟩

def ciList : List Char → List Char → Bool
  | [], [] => true
  | a :: as, b :: bs => ciEq a b && ciList as bs
  | _, _ => false

def ciAgree : List Char → List Char → Bool
  | [], _ => true
  | a :: as, r =>
    match r with
    | [] => true
    | b :: bs => ciEq a b && ciAgree as bs

theorem ciPref_append_agree : ∀ (p r xs : List Char),
    ciPref p (r ++ xs) = true → ciAgree p r = true
  | [], _, _, _ => rfl
  | _ :: _, [], _, _ => rfl
  | ph :: pt, rh :: rr, xs, h => by
    simp only [List.cons_append, ciPref, Bool.and_eq_true] at h
    simp only [ciAgree, Bool.and_eq_true]
    exact ⟨(ciEq_symm ph rh).trans h.1, ciPref_append_agree pt rr xs h.2⟩

theorem ciPref_pref_agree : ∀ (a b l : List Char),
    ciPref a l = true → ciPref b l = true → ciAgree a b = true
  | [], _, _, _, _ => rfl
  | _ :: _, [], _, _, _ => rfl
  | ah :: at_, bh :: bt, l, ha, hb => by
    cases l with
    | nil => simp [ciPref] at ha
    | cons c cs =>
      simp only [ciPref, Bool.and_eq_true] at ha hb
      simp only [ciAgree, Bool.and_eq_true]
      refine ⟨?_, ciPref_pref_agree at_ bt cs ha.2 hb.2⟩
      have h1 : Char.toLower c = Char.toLower ah := of_decide_eq_true ha.1
      have h2 : Char.toLower c = Char.toLower bh := of_decide_eq_true hb.1
      simp only [ciEq, lowerC]
      exact decide_eq_true (h1 ▸ h2)

theorem ciAgree_false_not_ciPref : ∀ (p r xs : List Char), p ≠ [] →
    ciAgree p r = false → ciPref p (r ++ xs) = false
  | [], _, _, hne, _ => absurd rfl hne
  | _ :: _, [], _, _, hag => by simp [ciAgree] at hag
  | ph :: pt, rh :: rr, xs, _, hag => by
    simp only [ciAgree, Bool.and_eq_false_iff] at hag
    simp only [List.cons_append, ciPref, Bool.and_eq_false_iff]
    rcases hag with h | h
    · left
      rw [ciEq_symm]
      exact h
    · by_cases hpt : pt = []
      · subst hpt
        simp [ciAgree] at h
      · right
        exact ciAgree_false_not_ciPref pt rr xs hpt h

theorem ciPref_length : ∀ (p l : List Char), ciPref p l = true → p.length ≤ l.length
  | [], _, _ => Nat.zero_le _
  | _ :: _, [], h => by simp [ciPref] at h
  | _ :: pt, _ :: cs, h => by
    simp only [ciPref, Bool.and_eq_true] at h
    simpa using ciPref_length pt cs h.2

theorem ciPref_take : ∀ (p l : List Char), ciPref p l = true →
    ciList (l.take p.length) p = true
  | [], _, _ => rfl
  | _ :: _, [], h => by simp [ciPref] at h
  | ph :: pt, c :: cs, h => by
    simp only [ciPref, Bool.and_eq_true] at h
    simp only [List.length_cons, List.take_succ_cons, ciList, Bool.and_eq_true]
    exact ⟨h.1, ciPref_take pt cs h.2⟩

theorem occursWW_flag (wh : Char) (wt : List Char) (hwh : isWordChar wh = true) :
    ∀ (l : List Char) (pw pw' : Bool), nonWordHead l = true →
      occursWW (wh :: wt) pw l = occursWW (wh :: wt) pw' l := by
  intro l pw pw' hl
  cases l with
  | nil => rfl
  | cons c cs =>
    have hc : isWordChar c = false := by
      simpa [nonWordHead] using hl
    have hm : matchWordAt (wh :: wt) (c :: cs) = false := by
      unfold matchWordAt
      have : ciEq c wh = false := by
        cases hEq : ciEq c wh with
        | false => rfl
        | true => rw [ciEq_isWordChar hEq, hwh] at hc; exact absurd hc (by simp)
      simp [ciPref, this]
    simp only [occursWW, hm, Bool.and_false, Bool.false_or]

theorem wordTailFlag_ne_nil : ∀ (t : List Char) (fl fl' : Bool), t ≠ [] →
    wordTailFlag t fl = wordTailFlag t fl'
  | [], _, _, h => absurd rfl h
  | [_], _, _, _ => rfl
  | _ :: d :: rest, fl, fl', _ => wordTailFlag_ne_nil (d :: rest) fl fl' (by simp)

theorem wordTailFlag_cons (c : Char) (t : List Char) (fl : Bool) :
    wordTailFlag t (isWordChar c) = wordTailFlag (c :: t) fl := by
  cases t with
  | nil => rfl
  | cons x xs =>
    show wordTailFlag (x :: xs) (isWordChar c) = wordTailFlag (x :: xs) fl
    exact wordTailFlag_ne_nil (x :: xs) _ _ (by simp)

theorem occursWW_skip (w : List Char) :
    ∀ (r : List Char), (∀ s ∈ r.tails, s ≠ [] → ciAgree w s = false) →
    ∀ (pw : Bool) (xs : List Char),
      occursWW w pw (r ++ xs) = occursWW w (wordTailFlag r pw) xs
  | [], _, pw, xs => by simp [wordTailFlag]
  | c :: rs, hr, pw, xs => by
    have hm : matchWordAt w ((c :: rs) ++ xs) = false := by
      unfold matchWordAt
      have hag : ciAgree w (c :: rs) = false :=
        hr (c :: rs) (by simp [List.mem_tails]) (by simp)
      by_cases hw : w = []
      · subst hw
        simp [ciAgree] at hag
      · rw [ciAgree_false_not_ciPref w (c :: rs) xs hw hag]
        rfl
    have hrs : ∀ s ∈ rs.tails, s ≠ [] → ciAgree w s = false := by
      intro s hs hne
      apply hr s _ hne
      rw [List.mem_tails] at hs ⊢
      exact hs.trans (List.suffix_cons c rs)
    calc occursWW w pw ((c :: rs) ++ xs)
        = occursWW w (isWordChar c) (rs ++ xs) := by
          rw [List.cons_append]
          show (!pw && matchWordAt w (c :: (rs ++ xs)) || occursWW w (isWordChar c) (rs ++ xs)) = _
          rw [show matchWordAt w (c :: (rs ++ xs)) = false from hm]
          simp
      _ = occursWW w (wordTailFlag rs (isWordChar c)) xs := occursWW_skip w rs hrs _ xs
      _ = occursWW w (wordTailFlag (c :: rs) pw) xs := by rw [wordTailFlag_cons]

/-- Suffixes of `w` that start after a non-word character of `w` are
case-insensitively incompatible with `w'` (checked over `w.tails`). -/
def gapOkB (w w' : List Char) : Bool :=
  w.tails.all (fun s =>
    match s with
    | [] => true
    | ch :: pt => isWordChar ch || !(ciAgree pt w'))

/-- Every non-empty suffix of `w` is case-insensitively incompatible
with `repl`. -/
def agreeTailsB (w repl : List Char) : Bool :=
  w.tails.all (fun s => s.isEmpty || !(ciAgree s repl))

/-- `w` is case-insensitively incompatible with every non-empty suffix
of `repl`. -/
def replTailsB (w repl : List Char) : Bool :=
  repl.tails.all (fun s => s.isEmpty || !(ciAgree w s))

/-- The head of `w` exists and is a word character. -/
def headWordB : List Char → Bool
  | [] => false
  | c :: _ => isWordChar c

/-- The last character of `w` exists and is a word character. -/
def lastWordB (w : List Char) : Bool := wordTailFlag w false

theorem gapOk_spec {w w' : List Char} (h : gapOkB w w' = true) :
    ∀ ch pt, (ch :: pt) <:+ w → isWordChar ch = false → ciAgree pt w' = false := by
  intro ch pt hs hch
  rw [gapOkB, List.all_eq_true] at h
  have h2 := h (ch :: pt) ((List.mem_tails _ _).mpr hs)
  simp only [hch, Bool.false_or, Bool.not_eq_true'] at h2
  exact h2

theorem agreeTails_spec {w repl : List Char} (h : agreeTailsB w repl = true) :
    ∀ p, p <:+ w → p ≠ [] → ciAgree p repl = false := by
  intro p hs hne
  rw [agreeTailsB, List.all_eq_true] at h
  have h2 := h p ((List.mem_tails _ _).mpr hs)
  rcases Bool.or_eq_true _ _ |>.mp h2 with h3 | h3
  · exact absurd (List.isEmpty_iff.mp h3) hne
  · simpa using h3

theorem replTails_spec {w repl : List Char} (h : replTailsB w repl = true) :
    ∀ s ∈ repl.tails, s ≠ [] → ciAgree w s = false := by
  intro s hs hne
  rw [replTailsB, List.all_eq_true] at h
  have h2 := h s hs
  rcases Bool.or_eq_true _ _ |>.mp h2 with h3 | h3
  · exact absurd (List.isEmpty_iff.mp h3) hne
  · simpa using h3

theorem lastWord_flag {w : List Char} (h : lastWordB w = true) (pw : Bool) :
    wordTailFlag w pw = true := by
  have hne : w ≠ [] := by
    intro he
    rw [he] at h
    exact absurd h (by simp [lastWordB, wordTailFlag])
  rw [wordTailFlag_ne_nil w pw false hne]
  exact h

theorem subWW_headPres (w' repl : List Char) (hh : headWordB w' = true) :
    ∀ (fuel : Nat) (b : Bool) (l : List Char), nonWordHead l = true →
      nonWordHead (subWW w' repl fuel b l) = true := by
  intro fuel b l hl
  cases fuel with
  | zero => exact hl
  | succ fuel =>
    cases l with
    | nil => rfl
    | cons c cs =>
      cases w' with
      | nil => exact absurd hh (by simp [headWordB])
      | cons wh wt =>
        have hc : isWordChar c = false := by simpa [nonWordHead] using hl
        have hm : matchWordAt (wh :: wt) (c :: cs) = false := by
          unfold matchWordAt
          have he : ciEq c wh = false := by
            cases hEq : ciEq c wh with
            | false => rfl
            | true =>
              rw [ciEq_isWordChar hEq] at hc
              rw [headWordB] at hh
              rw [hh] at hc
              exact absurd hc (by simp)
          simp [ciPref, he]
        show nonWordHead (if !b && matchWordAt (wh :: wt) (c :: cs) then _ else _) = true
        rw [hm]
        simp only [Bool.and_false, Bool.false_eq_true, if_neg, not_false_iff]
        exact hl

theorem subWW_matchPres (w w' repl : List Char)
    (hgap : gapOkB w w' = true) (hpr : agreeTailsB w repl = true) :
    ∀ (fuel : Nat) (p : List Char) (f : Bool) (l : List Char),
      l.length < fuel → p <:+ w → (f = false → ciAgree p w' = false) →
      (ciPref p (subWW w' repl fuel f l) &&
        nonWordHead ((subWW w' repl fuel f l).drop p.length)) =
      (ciPref p l && nonWordHead (l.drop p.length)) := by
  intro fuel
  induction fuel with
  | zero =>
    intro p f l hlen _ _
    exact absurd hlen (Nat.not_lt_zero _)
  | succ fuel ih =>
    intro p f l hlen hsuf hinv
    cases l with
    | nil => rfl
    | cons c cs =>
      have hlen' : cs.length < fuel := by
        simp only [List.length_cons] at hlen
        omega
      by_cases hg : (!f && matchWordAt w' (c :: cs)) = true
      · have hX : subWW w' repl (fuel + 1) f (c :: cs) =
            repl ++ subWW w' repl fuel (wordTailFlag w' f) (cs.drop (w'.length - 1)) := by
          show (if !f && matchWordAt w' (c :: cs) then _ else _) = _
          rw [if_pos hg]
        obtain ⟨hf, hm⟩ := (Bool.and_eq_true _ _).mp hg
        have hf' : f = false := by simpa using hf
        cases p with
        | nil =>
          have := hinv hf'
          simp [ciAgree] at this
        | cons ph pt =>
          have hpagree : ciAgree (ph :: pt) repl = false :=
            agreeTails_spec hpr (ph :: pt) hsuf (by simp)
          have hL : ciPref (ph :: pt)
              (repl ++ subWW w' repl fuel (wordTailFlag w' f) (cs.drop (w'.length - 1))) =
              false :=
            ciAgree_false_not_ciPref _ repl _ (by simp) hpagree
          have hR : ciPref (ph :: pt) (c :: cs) = false := by
            cases hcp : ciPref (ph :: pt) (c :: cs) with
            | false => rfl
            | true =>
              have hciw : ciPref w' (c :: cs) = true := by
                unfold matchWordAt at hm
                exact ((Bool.and_eq_true _ _).mp hm).1
              have hag : ciAgree (ph :: pt) w' = true :=
                ciPref_pref_agree _ _ _ hcp hciw
              rw [hinv hf'] at hag
              exact absurd hag (by simp)
          rw [hX, hL, hR]
          simp
      · have hX : subWW w' repl (fuel + 1) f (c :: cs) =
            c :: subWW w' repl fuel (isWordChar c) cs := by
          show (if !f && matchWordAt w' (c :: cs) then _ else _) = _
          rw [if_neg hg]
        rw [hX]
        cases p with
        | nil =>
          show (true && nonWordHead (c :: _)) = (true && nonWordHead (c :: cs))
          simp only [Bool.true_and]
          rfl
        | cons ph pt =>
          show ((ciEq c ph && ciPref pt (subWW w' repl fuel (isWordChar c) cs)) &&
              nonWordHead ((subWW w' repl fuel (isWordChar c) cs).drop pt.length)) =
            ((ciEq c ph && ciPref pt cs) && nonWordHead (cs.drop pt.length))
          cases he : ciEq c ph with
          | false => simp
          | true =>
            have hw : isWordChar c = isWordChar ph := ciEq_isWordChar he
            have hsuf' : pt <:+ w := (List.suffix_cons ph pt).trans hsuf
            have hinv' : isWordChar c = false → ciAgree pt w' = false := by
              intro hc
              exact gapOk_spec hgap ph pt hsuf (hw ▸ hc)
            have hrec := ih pt (isWordChar c) cs hlen' hsuf' hinv'
            simp only [Bool.true_and, Bool.and_assoc]
            exact hrec

/-- Suffixes of `w'` that start after a non-word character of `w'` are
case-insensitively incompatible with `w` (checked over `w'.tails`). -/
def gapRevOkB (w w' : List Char) : Bool :=
  w'.tails.all (fun s =>
    match s with
    | [] => true
    | ch :: pt => isWordChar ch || !(ciAgree w pt))

theorem gapRevOk_spec {w w' : List Char} (h : gapRevOkB w w' = true) :
    ∀ ch pt, (ch :: pt) <:+ w' → isWordChar ch = false → ciAgree w pt = false := by
  intro ch pt hs hch
  rw [gapRevOkB, List.all_eq_true] at h
  have h2 := h (ch :: pt) ((List.mem_tails _ _).mpr hs)
  simp only [hch, Bool.false_or, Bool.not_eq_true'] at h2
  exact h2

theorem ciPref_ciList_agree : ∀ (w t u dl : List Char),
    ciPref w (t ++ dl) = true → ciList t u = true → ciAgree w u = true
  | [], _, _, _, _, _ => rfl
  | _ :: _, [], u, _, _, hl => by
    cases u with
    | nil => rfl
    | cons _ _ => simp [ciList] at hl
  | wh :: wt, tc :: tt, u, dl, hp, hl => by
    cases u with
    | nil => simp [ciList] at hl
    | cons uc ut =>
      simp only [List.cons_append, ciPref, Bool.and_eq_true] at hp
      simp only [ciList, Bool.and_eq_true] at hl
      show (ciEq wh uc && ciAgree wt ut) = true
      rw [Bool.and_eq_true]
      refine ⟨?_, ciPref_ciList_agree wt tt ut dl hp.2 hl.2⟩
      have h1 : Char.toLower tc = Char.toLower wh := of_decide_eq_true hp.1
      have h2 : Char.toLower tc = Char.toLower uc := of_decide_eq_true hl.1
      have h3 : lowerC wh = lowerC uc := by
        show Char.toLower wh = Char.toLower uc
        rw [← h1, h2]
      exact decide_eq_true h3

theorem ciList_wordTailFlag : ∀ (t u : List Char) (fl : Bool), ciList t u = true →
    wordTailFlag t fl = wordTailFlag u fl
  | [], [], _, _ => rfl
  | [], _ :: _, _, h => by simp [ciList] at h
  | _ :: _, [], _, h => by simp [ciList] at h
  | [a], [b], fl, h => by
    have he : ciEq a b = true := by
      simp only [ciList, Bool.and_eq_true] at h
      exact h.1
    show isWordChar a = isWordChar b
    exact ciEq_isWordChar he
  | [a], b :: b2 :: bs, _, h => by
    simp only [ciList, Bool.and_eq_true] at h
    simp [ciList] at h
  | a :: a2 :: as, [b], _, h => by
    simp only [ciList, Bool.and_eq_true] at h
    simp [ciList] at h
  | a :: a2 :: as, b :: b2 :: bs, fl, h => by
    simp only [ciList, Bool.and_eq_true] at h
    show wordTailFlag (a2 :: as) fl = wordTailFlag (b2 :: bs) fl
    exact ciList_wordTailFlag (a2 :: as) (b2 :: bs) fl (by
      simp only [ciList, Bool.and_eq_true]
      exact h.2)

theorem occursWW_walk (w w' : List Char) (hrev : gapRevOkB w w' = true) :
    ∀ (t u dl : List Char) (fl : Bool),
      ciList t u = true → u <:+ w' →
      (fl = false → ciAgree w u = false) →
      occursWW w fl (t ++ dl) = occursWW w (wordTailFlag t fl) dl
  | [], _, dl, fl, _, _, _ => rfl
  | tc :: tt, u, dl, fl, hl, hu, hinv => by
    cases u with
    | nil => simp [ciList] at hl
    | cons uc ut =>
      simp only [ciList, Bool.and_eq_true] at hl
      have hm : (!fl && matchWordAt w (tc :: (tt ++ dl))) = false := by
        cases fl with
        | true => simp
        | false =>
          simp only [Bool.not_false, Bool.true_and]
          cases hmm : matchWordAt w (tc :: (tt ++ dl)) with
          | false => rfl
          | true =>
            have hcp : ciPref w ((tc :: tt) ++ dl) = true := by
              unfold matchWordAt at hmm
              exact ((Bool.and_eq_true _ _).mp hmm).1
            have hag : ciAgree w (uc :: ut) = true :=
              ciPref_ciList_agree w (tc :: tt) (uc :: ut) dl hcp (by
                simp only [ciList, Bool.and_eq_true]
                exact hl)
            rw [hinv rfl] at hag
            exact absurd hag (by simp)
      have hstep : occursWW w fl ((tc :: tt) ++ dl) =
          occursWW w (isWordChar tc) (tt ++ dl) := by
        rw [List.cons_append]
        show ((!fl && matchWordAt w (tc :: (tt ++ dl))) ||
          occursWW w (isWordChar tc) (tt ++ dl)) = _
        rw [hm]
        simp
      rw [hstep]
      have hut : ut <:+ w' := (List.suffix_cons uc ut).trans hu
      have hinv' : isWordChar tc = false → ciAgree w ut = false := by
        intro hc
        have : isWordChar uc = false := by
          rw [← ciEq_isWordChar hl.1]
          exact hc
        exact gapRevOk_spec hrev uc ut hu this
      rw [occursWW_walk w w' hrev tt ut dl (isWordChar tc) hl.2 hut hinv']
      rw [wordTailFlag_cons]

theorem subWW_occurs_self (w repl : List Char)
    (hhw : headWordB w = true) (hlw : lastWordB w = true)
    (hr0 : wordTailFlag repl false = false) (hr1 : wordTailFlag repl true = false)
    (hrin : replTailsB w repl = true) (hat : agreeTailsB w repl = true)
    (hgap : gapOkB w w = true) :
    ∀ (fuel : Nat) (pw : Bool) (l : List Char), l.length < fuel →
      occursWW w pw (subWW w repl fuel pw l) = false := by
  obtain ⟨wh, wt, rfl⟩ : ∃ wh wt, w = wh :: wt := by
    cases w with
    | nil => exact absurd hhw (by simp [headWordB])
    | cons a b => exact ⟨a, b, rfl⟩
  have hwh : isWordChar wh = true := hhw
  intro fuel
  induction fuel with
  | zero =>
    intro pw l hlen
    exact absurd hlen (Nat.not_lt_zero _)
  | succ fuel ih =>
    intro pw l hlen
    cases l with
    | nil => rfl
    | cons c cs =>
      have hlen2 : cs.length < fuel := by
        simp only [List.length_cons] at hlen
        omega
      by_cases hg : (!pw && matchWordAt (wh :: wt) (c :: cs)) = true
      · have hX : subWW (wh :: wt) repl (fuel + 1) pw (c :: cs) =
            repl ++ subWW (wh :: wt) repl fuel (wordTailFlag (wh :: wt) pw)
              (cs.drop ((wh :: wt).length - 1)) := by
          show (if !pw && matchWordAt (wh :: wt) (c :: cs) then _ else _) = _
          rw [if_pos hg]
        obtain ⟨hf, hm⟩ := (Bool.and_eq_true _ _).mp hg
        have hnwh : nonWordHead ((c :: cs).drop (wh :: wt).length) = true := by
          unfold matchWordAt at hm
          exact ((Bool.and_eq_true _ _).mp hm).2
        have hdl : (c :: cs).drop (wh :: wt).length = cs.drop ((wh :: wt).length - 1) := by
          simp [List.length_cons]
        have hnwhdl : nonWordHead (cs.drop ((wh :: wt).length - 1)) = true := by
          rw [← hdl]
          exact hnwh
        have hdllen : (cs.drop ((wh :: wt).length - 1)).length < fuel := by
          rw [List.length_drop]
          omega
        rw [hX]
        rw [occursWW_skip (wh :: wt) repl (replTails_spec hrin) pw _]
        have hrf : wordTailFlag repl pw = false := by
          cases pw with
          | false => exact hr0
          | true => exact hr1
        rw [hrf]
        have hnwhX : nonWordHead (subWW (wh :: wt) repl fuel
            (wordTailFlag (wh :: wt) pw) (cs.drop ((wh :: wt).length - 1))) = true :=
          subWW_headPres (wh :: wt) repl hhw fuel _ _ hnwhdl
        rw [occursWW_flag wh wt hwh _ false (wordTailFlag (wh :: wt) pw) hnwhX]
        exact ih (wordTailFlag (wh :: wt) pw) _ hdllen
      · have hX : subWW (wh :: wt) repl (fuel + 1) pw (c :: cs) =
            c :: subWW (wh :: wt) repl fuel (isWordChar c) cs := by
          show (if !pw && matchWordAt (wh :: wt) (c :: cs) then _ else _) = _
          rw [if_neg hg]
        rw [hX]
        show (!pw && matchWordAt (wh :: wt) (c :: subWW (wh :: wt) repl fuel (isWordChar c) cs) ||
          occursWW (wh :: wt) (isWordChar c) (subWW (wh :: wt) repl fuel (isWordChar c) cs)) = false
        rw [ih (isWordChar c) cs hlen2]
        cases hpw : pw with
        | true => simp
        | false =>
          have hmf : matchWordAt (wh :: wt) (c :: cs) = false := by
            rw [hpw] at hg
            simpa using hg
          have htrans : matchWordAt (wh :: wt) (c :: subWW (wh :: wt) repl fuel (isWordChar c) cs) =
              matchWordAt (wh :: wt) (c :: cs) := by
            show ((ciEq c wh && ciPref wt (subWW (wh :: wt) repl fuel (isWordChar c) cs)) &&
                nonWordHead ((c :: subWW (wh :: wt) repl fuel (isWordChar c) cs).drop
                  (wh :: wt).length)) =
              ((ciEq c wh && ciPref wt cs) &&
                nonWordHead ((c :: cs).drop (wh :: wt).length))
            cases he : ciEq c wh with
            | false => simp
            | true =>
              have hcw : isWordChar c = isWordChar wh := ciEq_isWordChar he
              have hinv : isWordChar c = false → ciAgree wt (wh :: wt) = false := by
                intro hc
                exact gapOk_spec hgap wh wt (List.suffix_refl (wh :: wt)) (hcw ▸ hc)
              have hmp := subWW_matchPres (wh :: wt) (wh :: wt) repl hgap hat fuel wt
                (isWordChar c) cs hlen2 (List.suffix_cons wh wt) hinv
              simp only [Bool.true_and, Bool.and_assoc, List.length_cons,
                List.drop_succ_cons]
              exact hmp
          rw [htrans, hmf]
          simp

theorem subWW_occurs_ne (w w' repl : List Char)
    (hhw : headWordB w = true) (hlw : lastWordB w = true)
    (hhw' : headWordB w' = true) (hlw' : lastWordB w' = true)
    (hr0 : wordTailFlag repl false = false) (hr1 : wordTailFlag repl true = false)
    (hrin : replTailsB w repl = true) (hat : agreeTailsB w repl = true)
    (hgap : gapOkB w w' = true) (hrev : gapRevOkB w w' = true)
    (hAg : ciAgree w w' = false) :
    ∀ (fuel : Nat) (pw : Bool) (l : List Char), l.length < fuel →
      occursWW w pw (subWW w' repl fuel pw l) = occursWW w pw l := by
  obtain ⟨wh, wt, rfl⟩ : ∃ wh wt, w = wh :: wt := by
    cases w with
    | nil => exact absurd hhw (by simp [headWordB])
    | cons a b => exact ⟨a, b, rfl⟩
  obtain ⟨vh, vt, rfl⟩ : ∃ vh vt, w' = vh :: vt := by
    cases w' with
    | nil => exact absurd hhw' (by simp [headWordB])
    | cons a b => exact ⟨a, b, rfl⟩
  have hwh : isWordChar wh = true := hhw
  have hvh : isWordChar vh = true := hhw'
  have hidx : (vh :: vt).length - 1 = vt.length := by simp
  intro fuel
  induction fuel with
  | zero =>
    intro pw l hlen
    exact absurd hlen (Nat.not_lt_zero _)
  | succ fuel ih =>
    intro pw l hlen
    cases l with
    | nil => rfl
    | cons c cs =>
      have hlen2 : cs.length < fuel := by
        simp only [List.length_cons] at hlen
        omega
      by_cases hg : (!pw && matchWordAt (vh :: vt) (c :: cs)) = true
      · -- the scanner replaces a match of w' here
        have hX : subWW (vh :: vt) repl (fuel + 1) pw (c :: cs) =
            repl ++ subWW (vh :: vt) repl fuel (wordTailFlag (vh :: vt) pw)
              (cs.drop ((vh :: vt).length - 1)) := by
          show (if !pw && matchWordAt (vh :: vt) (c :: cs) then _ else _) = _
          rw [if_pos hg]
        obtain ⟨hf, hm⟩ := (Bool.and_eq_true _ _).mp hg
        have hciw : ciPref (vh :: vt) (c :: cs) = true := by
          unfold matchWordAt at hm
          exact ((Bool.and_eq_true _ _).mp hm).1
        have hnwh : nonWordHead ((c :: cs).drop (vh :: vt).length) = true := by
          unfold matchWordAt at hm
          exact ((Bool.and_eq_true _ _).mp hm).2
        have hdl : (c :: cs).drop (vh :: vt).length = cs.drop ((vh :: vt).length - 1) := by
          simp [List.length_cons]
        have hnwhdl : nonWordHead (cs.drop ((vh :: vt).length - 1)) = true := by
          rw [← hdl]
          exact hnwh
        have hdllen : (cs.drop ((vh :: vt).length - 1)).length < fuel := by
          rw [List.length_drop]
          omega
        have hwtf : wordTailFlag (vh :: vt) pw = true := lastWord_flag hlw' pw
        rw [hX]
        rw [occursWW_skip (wh :: wt) repl (replTails_spec hrin) pw _]
        have hrf : wordTailFlag repl pw = false := by
          cases pw with
          | false => exact hr0
          | true => exact hr1
        rw [hrf]
        have hnwhX : nonWordHead (subWW (vh :: vt) repl fuel
            (wordTailFlag (vh :: vt) pw) (cs.drop ((vh :: vt).length - 1))) = true :=
          subWW_headPres (vh :: vt) repl hhw' fuel _ _ hnwhdl
        rw [occursWW_flag wh wt hwh _ false (wordTailFlag (vh :: vt) pw) hnwhX]
        rw [show subWW (vh :: vt) repl fuel (wordTailFlag (vh :: vt) pw)
              (cs.drop ((vh :: vt).length - 1)) =
            subWW (vh :: vt) repl fuel true (cs.drop ((vh :: vt).length - 1)) from by
          rw [hwtf]]
        rw [hwtf]
        rw [ih true _ hdllen]
        -- right-hand side analysis
        have hmw : matchWordAt (wh :: wt) (c :: cs) = false := by
          cases hcp : ciPref (wh :: wt) (c :: cs) with
          | false =>
            unfold matchWordAt
            rw [hcp]
            rfl
          | true =>
            have hag : ciAgree (wh :: wt) (vh :: vt) = true :=
              ciPref_pref_agree _ _ _ hcp hciw
            rw [hAg] at hag
            exact absurd hag (by simp)
        have hic : isWordChar c = true := by
          have he : ciEq c vh = true := by
            simp only [ciPref, Bool.and_eq_true] at hciw
            exact hciw.1
          rw [ciEq_isWordChar he]
          exact hvh
        have hclist : ciList (cs.take vt.length) vt = true := by
          have hpv : ciPref vt cs = true := by
            simp only [ciPref, Bool.and_eq_true] at hciw
            exact hciw.2
          exact ciPref_take vt cs hpv
        have hwt_t : wordTailFlag (cs.take vt.length) true = true := by
          rw [ciList_wordTailFlag _ vt true hclist]
          cases hvt : vt with
          | nil => rfl
          | cons x xs =>
            rw [wordTailFlag_ne_nil (x :: xs) true (isWordChar vh) (by simp)]
            rw [wordTailFlag_cons vh (x :: xs) true]
            rw [← hvt]
            exact lastWord_flag hlw' true
        have hrhs : occursWW (wh :: wt) pw (c :: cs) =
            occursWW (wh :: wt) true (cs.drop vt.length) := by
          show (!pw && matchWordAt (wh :: wt) (c :: cs) ||
            occursWW (wh :: wt) (isWordChar c) cs) = _
          rw [hmw, hic, Bool.and_false, Bool.false_or]
          conv_lhs => rw [show cs = cs.take vt.length ++ cs.drop vt.length from
            (List.take_append_drop _ _).symm]
          rw [occursWW_walk (wh :: wt) (vh :: vt) hrev (cs.take vt.length) vt
            (cs.drop vt.length) true hclist (List.suffix_cons vh vt)
            (fun h => absurd h (by simp))]
          rw [hwt_t]
        rw [hrhs, hidx]
      · have hX : subWW (vh :: vt) repl (fuel + 1) pw (c :: cs) =
            c :: subWW (vh :: vt) repl fuel (isWordChar c) cs := by
          show (if !pw && matchWordAt (vh :: vt) (c :: cs) then _ else _) = _
          rw [if_neg hg]
        rw [hX]
        show (!pw && matchWordAt (wh :: wt)
            (c :: subWW (vh :: vt) repl fuel (isWordChar c) cs) ||
          occursWW (wh :: wt) (isWordChar c)
            (subWW (vh :: vt) repl fuel (isWordChar c) cs)) = _
        rw [ih (isWordChar c) cs hlen2]
        have htrans : matchWordAt (wh :: wt)
            (c :: subWW (vh :: vt) repl fuel (isWordChar c) cs) =
            matchWordAt (wh :: wt) (c :: cs) := by
          show ((ciEq c wh && ciPref wt (subWW (vh :: vt) repl fuel (isWordChar c) cs)) &&
              nonWordHead ((c :: subWW (vh :: vt) repl fuel (isWordChar c) cs).drop
                (wh :: wt).length)) =
            ((ciEq c wh && ciPref wt cs) &&
              nonWordHead ((c :: cs).drop (wh :: wt).length))
          cases he : ciEq c wh with
          | false => simp
          | true =>
            have hcw : isWordChar c = isWordChar wh := ciEq_isWordChar he
            have hinv : isWordChar c = false → ciAgree wt (vh :: vt) = false := by
              intro hc
              exact gapOk_spec hgap wh wt (List.suffix_refl (wh :: wt)) (hcw ▸ hc)
            have hmp := subWW_matchPres (wh :: wt) (vh :: vt) repl hgap hat fuel wt
              (isWordChar c) cs hlen2 (List.suffix_cons wh wt) hinv
            simp only [Bool.true_and, Bool.and_assoc, List.length_cons,
              List.drop_succ_cons]
            exact hmp
        rw [htrans]
        rfl

/-- The banned-word fix message. -/
def bmsg (w : String) : String := "Removed banned word: '" ++ w ++ "'"

/-- One step of the `remove_banned_words` fold. -/
def bstep (acc : List Char × List String) (v : String) : List Char × List String :=
  if occursWW v.toList false acc.1 then
    (subWWs v.toList "[FILTERED]".toList acc.1, acc.2 ++ [bmsg v])
  else acc

theorem remove_banned_words_eq_fold (query : List Char) :
    QueryHeuristics.remove_banned_words query =
      QueryHeuristics.banned_words.foldl bstep (query, []) := rfl

/-- All side conditions the substitution lemmas need, for the pair
`(w, v)` and the replacement text. -/
def pairCondsB (w v repl : List Char) : Bool :=
  headWordB w && lastWordB w && headWordB v && lastWordB v &&
  !(wordTailFlag repl false) && !(wordTailFlag repl true) &&
  replTailsB w repl && agreeTailsB w repl && gapOkB w v && gapRevOkB w v

theorem occurs_bstep_ne (w v : String) (cur : List Char)
    (hpair : pairCondsB w.toList v.toList ("[FILTERED]".toList) = true)
    (hag : ciAgree w.toList v.toList = false) :
    occursWW w.toList false (subWWs v.toList "[FILTERED]".toList cur) =
      occursWW w.toList false cur := by
  simp only [pairCondsB, Bool.and_eq_true, Bool.not_eq_true'] at hpair
  obtain ⟨⟨⟨⟨⟨⟨⟨⟨⟨h1, h2⟩, h3⟩, h4⟩, h5⟩, h6⟩, h7⟩, h8⟩, h9⟩, h10⟩ := hpair
  exact subWW_occurs_ne w.toList v.toList _ h1 h2 h3 h4 h5 h6 h7 h8 h9 h10 hag
    (cur.length + 1) false cur (Nat.lt_succ_self _)

theorem occurs_bstep_self (w : String) (cur : List Char)
    (hpair : pairCondsB w.toList w.toList ("[FILTERED]".toList) = true) :
    occursWW w.toList false (subWWs w.toList "[FILTERED]".toList cur) = false := by
  simp only [pairCondsB, Bool.and_eq_true, Bool.not_eq_true'] at hpair
  obtain ⟨⟨⟨⟨⟨⟨⟨⟨⟨h1, h2⟩, h3⟩, h4⟩, h5⟩, h6⟩, h7⟩, h8⟩, h9⟩, h10⟩ := hpair
  exact subWW_occurs_self w.toList _ h1 h2 h5 h6 h7 h8 h9
    (cur.length + 1) false cur (Nat.lt_succ_self _)

theorem banned_fold_preserve (w : String) :
    ∀ (bl : List String) (cur : List Char) (fixes : List String),
      (∀ v ∈ bl, v = w ∨
        (pairCondsB w.toList v.toList ("[FILTERED]".toList) = true ∧
         ciAgree w.toList v.toList = false ∧ bmsg v ≠ bmsg w)) →
      occursWW w.toList false cur = false →
      occursWW w.toList false ((bl.foldl bstep (cur, fixes)).1) = false ∧
      (bl.foldl bstep (cur, fixes)).2.count (bmsg w) = fixes.count (bmsg w)
  | [], cur, fixes, _, hocc => ⟨hocc, rfl⟩
  | v :: rest, cur, fixes, hconds, hocc => by
    rw [List.foldl_cons]
    by_cases hvo : occursWW v.toList false cur = true
    · have hstep : bstep (cur, fixes) v =
          (subWWs v.toList "[FILTERED]".toList cur, fixes ++ [bmsg v]) := by
        unfold bstep
        rw [if_pos hvo]
      rw [hstep]
      rcases hconds v (List.mem_cons_self v rest) with rfl | ⟨hpair, hag, hne⟩
      · rw [hocc] at hvo
        exact absurd hvo (by simp)
      · have hocc' : occursWW w.toList false
            (subWWs v.toList "[FILTERED]".toList cur) = false := by
          rw [occurs_bstep_ne w v cur hpair hag]
          exact hocc
        have hrec := banned_fold_preserve w rest
          (subWWs v.toList "[FILTERED]".toList cur) (fixes ++ [bmsg v])
          (fun u hu => hconds u (List.mem_cons_of_mem v hu)) hocc'
        refine ⟨hrec.1, ?_⟩
        rw [hrec.2, List.count_append]
        have : (List.count (bmsg w) [bmsg v]) = 0 := by
          simp [List.count_cons, hne]
        rw [this]
        omega
    · have hstep : bstep (cur, fixes) v = (cur, fixes) := by
        unfold bstep
        rw [if_neg hvo]
      rw [hstep]
      exact banned_fold_preserve w rest cur fixes
        (fun u hu => hconds u (List.mem_cons_of_mem v hu)) hocc

theorem banned_fold_main (w : String) :
    ∀ (bl : List String) (cur : List Char) (fixes : List String),
      w ∈ bl →
      (∀ v ∈ bl, pairCondsB w.toList v.toList ("[FILTERED]".toList) = true ∧
        (v = w ∨ (ciAgree w.toList v.toList = false ∧ bmsg v ≠ bmsg w))) →
      occursWW w.toList false ((bl.foldl bstep (cur, fixes)).1) = false ∧
      (bl.foldl bstep (cur, fixes)).2.count (bmsg w) =
        fixes.count (bmsg w) + (if occursWW w.toList false cur = true then 1 else 0)
  | [], _, _, hmem, _ => absurd hmem (by simp)
  | v :: rest, cur, fixes, hmem, hconds => by
    rw [List.foldl_cons]
    by_cases hvw : v = w
    · subst hvw
      by_cases hocc : occursWW v.toList false cur = true
      · have hstep : bstep (cur, fixes) v =
            (subWWs v.toList "[FILTERED]".toList cur, fixes ++ [bmsg v]) := by
          unfold bstep
          rw [if_pos hocc]
        rw [hstep]
        have hpair := (hconds v (List.mem_cons_self v rest)).1
        have hoccnew : occursWW v.toList false
            (subWWs v.toList "[FILTERED]".toList cur) = false :=
          occurs_bstep_self v cur hpair
        have hrest : ∀ u ∈ rest, u = v ∨
            (pairCondsB v.toList u.toList ("[FILTERED]".toList) = true ∧
             ciAgree v.toList u.toList = false ∧ bmsg u ≠ bmsg v) := by
          intro u hu
          rcases hconds u (List.mem_cons_of_mem v hu) with ⟨hp, rfl | hrest2⟩
          · exact Or.inl rfl
          · exact Or.inr ⟨hp, hrest2.1, hrest2.2⟩
        have hpres := banned_fold_preserve v rest
          (subWWs v.toList "[FILTERED]".toList cur) (fixes ++ [bmsg v]) hrest hoccnew
        refine ⟨hpres.1, ?_⟩
        rw [hpres.2, List.count_append, hocc]
        simp [List.count_cons]
      · have hstep : bstep (cur, fixes) v = (cur, fixes) := by
          unfold bstep
          rw [if_neg hocc]
        rw [hstep]
        have hoccf : occursWW v.toList false cur = false := by
          simpa using hocc
        have hrest : ∀ u ∈ rest, u = v ∨
            (pairCondsB v.toList u.toList ("[FILTERED]".toList) = true ∧
             ciAgree v.toList u.toList = false ∧ bmsg u ≠ bmsg v) := by
          intro u hu
          rcases hconds u (List.mem_cons_of_mem v hu) with ⟨hp, rfl | hrest2⟩
          · exact Or.inl rfl
          · exact Or.inr ⟨hp, hrest2.1, hrest2.2⟩
        have hpres := banned_fold_preserve v rest cur fixes hrest hoccf
        refine ⟨hpres.1, ?_⟩
        rw [hpres.2, hoccf]
        simp
    · have hwrest : w ∈ rest := by
        rcases List.mem_cons.mp hmem with rfl | h
        · exact absurd rfl hvw
        · exact h
      rcases hconds v (List.mem_cons_self v rest) with ⟨hpair, rfl | ⟨hag, hne⟩⟩
      · exact absurd rfl hvw
      · by_cases hvo : occursWW v.toList false cur = true
        · have hstep : bstep (cur, fixes) v =
              (subWWs v.toList "[FILTERED]".toList cur, fixes ++ [bmsg v]) := by
            unfold bstep
            rw [if_pos hvo]
          rw [hstep]
          have hrec := banned_fold_main w rest
            (subWWs v.toList "[FILTERED]".toList cur) (fixes ++ [bmsg v]) hwrest
            (fun u hu => hconds u (List.mem_cons_of_mem v hu))
          refine ⟨hrec.1, ?_⟩
          rw [hrec.2, occurs_bstep_ne w v cur hpair hag, List.count_append]
          have : (List.count (bmsg w) [bmsg v]) = 0 := by
            simp [List.count_cons, hne]
          rw [this]
          omega
        · have hstep : bstep (cur, fixes) v = (cur, fixes) := by
            unfold bstep
            rw [if_neg hvo]
          rw [hstep]
          exact banned_fold_main w rest cur fixes hwrest
            (fun u hu => hconds u (List.mem_cons_of_mem v hu))

theorem banned_pair_conds :
    ∀ u ∈ QueryHeuristics.banned_words, ∀ v ∈ QueryHeuristics.banned_words,
      pairCondsB u.toList v.toList ("[FILTERED]".toList) = true ∧
      (v = u ∨ (ciAgree u.toList v.toList = false ∧ bmsg v ≠ bmsg u)) := by decide

/-- Counterexample input: a banned word, filler keeping total length just over
the 500-character cap, and a longer word sharing the banned word's letters. -/
def c2cex : List Char := "hack ".toList ++ List.replicate 484 'a' ++ " hacker".toList

set_option maxRecDepth 40000 in
/-- Claim C2 counterexample: the claim says a banned word can never
survive into the final pipeline output, yet on this input the length cap
truncates the filler word "hacker" to "hack...", re-exposing the banned
word "hack" as a whole word in the output of the full pipeline. -/
theorem claim_C2_counterexample :
    ("hack" ∈ QueryHeuristics.banned_words ∧
      occursWW "hack".toList false c2cex = true) ∧
    occursWW "hack".toList false (apply_heuristics ['2', '0'] c2cex).1 = true := by
  constructor
  · constructor
    · decide
    · decide
  · decide

/-- Claim C2 amended: after `remove_banned_words` alone (before any later
pipeline stage), no banned word occurs as a whole word (case-insensitively)
in the cleaned query, and the fix list counts exactly one removal message
for a banned word iff that word occurred in the input. -/
theorem claim_C2_amended (query : List Char) (w : String)
    (hw : w ∈ QueryHeuristics.banned_words) :
    occursWW w.toList false (QueryHeuristics.remove_banned_words query).1 = false ∧
    (QueryHeuristics.remove_banned_words query).2.count
        ("Removed banned word: '" ++ w ++ "'") =
      (if occursWW w.toList false query = true then 1 else 0) := by
  have h := banned_fold_main w QueryHeuristics.banned_words query [] hw
    (fun v hv => banned_pair_conds w hw v hv)
  rw [remove_banned_words_eq_fold]
  have hz : List.count (bmsg w) ([] : List String) = 0 := rfl
  rw [hz] at h
  have hb : ("Removed banned word: '" ++ w ++ "'") = bmsg w := rfl
  rw [hb]
  refine ⟨h.1, ?_⟩
  rw [h.2]
  omega

/-- Witness for C2 amended at a concrete query and banned word. -/
theorem claim_C2_witness :
    "hack" ∈ QueryHeuristics.banned_words ∧
    occursWW "hack".toList false
      (QueryHeuristics.remove_banned_words "can you hack this".toList).1 = false ∧
    (QueryHeuristics.remove_banned_words "can you hack this".toList).2.count
        ("Removed banned word: '" ++ "hack" ++ "'") =
      (if occursWW "hack".toList false "can you hack this".toList = true then 1 else 0) := by
  have h := claim_C2_amended "can you hack this".toList "hack" (by decide)
  exact ⟨by decide, h.1, h.2⟩

end Heuristics
